import Mathlib

/-!
Verification development for the duplicate-file engine of the undupes
repository (src/undupes.go, package libdupes: the two-pass variant with
initialBlocksize = 4096, lines 115-275 of the concatenated source).

The embedding is shallow: Go maps become association lists processed in
insertion order (Go map iteration order is unspecified; the claims settled
here are robust to that choice or are counterexamples reproducible in any
order), int64 becomes Int (no claim exercises overflow), and the md5 digest
of a byte sequence is modeled as the byte sequence itself (an ideal
collision-free hash, matching the spec's digest-equality-as-content-equality
reading). A file on disk is a path plus content plus a readability flag;
hash(path, ...) reopens the path against the same immutable snapshot.
-/

namespace Undupes

/-- A file on disk: its path, its byte content (bytes as naturals), and
whether opening/reading it succeeds. The walk's stat reports the true byte
length even for files whose content cannot be read. -/
structure FileEntry where
  path : String
  content : List Nat
  readable : Bool
deriving DecidableEq

/-- The int64 size reported by the walk for a file (its true byte length). -/
def intSize (e : FileEntry) : Int := e.content.length

/-- The digest produced by the first hashing pass over a file: md5 of at most
the first 4096 bytes (initialBlocksize). Under the ideal-hash model this is
the byte sequence itself. -/
def pdig (e : FileEntry) : List Nat := e.content.take 4096

/-- Association list lookup, modelling Go map access: the value stored at a
key, if present. -/
def alistFind? {κ β : Type} [DecidableEq κ] : List (κ × β) → κ → Option β
  | [], _ => none
  | (k, v) :: t, k0 => if k = k0 then some v else alistFind? t k0

/-- Association list assignment, modelling Go map assignment m[k] = v: the
first binding of the key is replaced in place, a missing key is appended. -/
def updateA {κ β : Type} [DecidableEq κ] : List (κ × β) → κ → β → List (κ × β)
  | [], k0, v0 => [(k0, v0)]
  | (k, v) :: t, k0, v0 => if k = k0 then (k0, v0) :: t else (k, v) :: updateA t k0 v0

/-- Per-size bucket state: filesWithHashes from the source. `unhashed` uses
the source's empty-string sentinel for "no pending file"; `firstPass` maps a
first-pass digest to the unconfirmed path holding it (empty string once the
digest group is resolved); `fullHashes` maps a full-content digest to the
member paths collected so far. -/
structure Bucket where
  unhashed : String
  firstPass : List (List Nat × String)
  fullHashes : List (List Nat × List String)
deriving DecidableEq

/-- The engine's mutable state during the scan: the size-keyed bucket map
plus a ghost log of every hash invocation (path, blocksize), recorded whether
or not the invocation succeeds. -/
structure CoreState where
  files : List (Int × Bucket)
  hashLog : List (String × Int)
deriving DecidableEq

/-- Output unit of the engine: Info from the source, a per-file byte size and
the duplicate paths. -/
structure Info where
  Size : Int
  Names : List String
deriving DecidableEq

/-- Model of hash(path, blocksize) (source lines 150-176): os.Open fails on a
missing or unreadable path; for blocksize > 0 the digest covers exactly
blocksize bytes via io.CopyN, which reports io.EOF - an error - when the file
is shorter than blocksize; for blocksize <= 0 io.Copy digests the whole
content. -/
def goHash (fs : List FileEntry) (p : String) (bs : Int) : Option (List Nat) :=
  match fs.find? (fun e => e.path == p) with
  | none => none
  | some e =>
    if e.readable then
      if 0 < bs then
        if bs ≤ (e.content.length : Int) then some (e.content.take bs.toNat) else none
      else some e.content
    else none

/-- hs.FullHashes[sum] = append(hs.FullHashes[sum], p): append to the list at
a digest key, starting from nil when the key is absent. -/
def appendFH (fh : List (List Nat × List String)) (d : List Nat) (p : String) :
    List (List Nat × List String) :=
  updateA fh d (((alistFind? fh d).getD []) ++ [p])

/-- Store an updated bucket at its size key and extend the hash log. -/
def putB (st : CoreState) (size : Int) (b : Bucket) (lg : List (String × Int)) : CoreState :=
  ⟨updateA st.files size b, st.hashLog ++ lg⟩

/-- Final stage of processing one pending file: full-content hash of the
current file and filing under its digest (source lines 251-258); a hash
failure skips the file, keeping the bucket mutations made so far. -/
def stepC (fs : List FileEntry) (st : CoreState) (path : String) (size : Int)
    (hs : Bucket) (lg : List (String × Int)) : CoreState :=
  match goHash fs path (-1) with
  | none => putB st size hs (lg ++ [(path, -1)])
  | some sp =>
      putB st size { hs with fullHashes := appendFH hs.fullHashes sp path } (lg ++ [(path, -1)])

/-- Middle stage: first-pass hash of the current file and collision handling
(source lines 231-262). On a collision with a still-unconfirmed path the slot
is cleared first; a failure hashing that previous path skips the current file
while the cleared slot persists, exactly as the source's continue does. -/
def stepB (fs : List FileEntry) (st : CoreState) (path : String) (size : Int)
    (hs : Bucket) (lg : List (String × Int)) : CoreState :=
  match goHash fs path (min 4096 size) with
  | none => putB st size hs (lg ++ [(path, min 4096 size)])
  | some s2 =>
    match alistFind? hs.firstPass s2 with
    | none =>
        putB st size { hs with firstPass := updateA hs.firstPass s2 path }
          (lg ++ [(path, min 4096 size)])
    | some collision =>
      if collision = "" then
        stepC fs st path size hs (lg ++ [(path, min 4096 size)])
      else
        match goHash fs collision (-1) with
        | none =>
            putB st size { hs with firstPass := updateA hs.firstPass s2 "" }
              (lg ++ [(path, min 4096 size), (collision, -1)])
        | some sc =>
            stepC fs st path size
              { unhashed := hs.unhashed,
                firstPass := updateA hs.firstPass s2 "",
                fullHashes := appendFH hs.fullHashes sc collision }
              (lg ++ [(path, min 4096 size), (collision, -1)])

/-- Processing of one pending (path, size) record (source lines 201-263): a
fresh size creates a pending bucket with no hashing; otherwise the pending
unhashed file, if any, is first-pass hashed (a failure skips the current file
and keeps the unhashed sentinel, as the source's continue does), then the
current file goes through the first-pass/full-pass stages. The source's
panic("logic error!") guard, asserting that a bucket with an unhashed
sentinel has empty hash maps, is proved unreachable below
(see Inv1 and bucketInv_uEmpty). -/
def step (fs : List FileEntry) (st : CoreState) (cur : FileEntry) : CoreState :=
  let path := cur.path
  let size := intSize cur
  match alistFind? st.files size with
  | none => { st with files := updateA st.files size ⟨path, [], []⟩ }
  | some hs =>
    if hs.unhashed = "" then
      stepB fs st path size hs []
    else
      match goHash fs hs.unhashed (min 4096 size) with
      | none => putB st size hs [(hs.unhashed, min 4096 size)]
      | some s1 =>
          stepB fs st path size
            { unhashed := "",
              firstPass := updateA hs.firstPass s1 hs.unhashed,
              fullHashes := hs.fullHashes }
            [(hs.unhashed, min 4096 size)]

/-- The whole duplicate-resolution loop over the pooled pending list (source
lines 199-263), threading the bucket map through every file. The pending list
also serves as the disk snapshot that hash(path) reopens. -/
def runCore (fs : List FileEntry) : CoreState :=
  fs.foldl (step fs) ⟨[], []⟩

/-- Group assembly (source lines 264-271): every full-digest bucket with at
least two members becomes one Info, in map iteration order. -/
def collectDupes (files : List (Int × Bucket)) : List Info :=
  files.flatMap (fun sb =>
    sb.2.fullHashes.filterMap (fun dl =>
      if 1 < dl.2.length then some ⟨sb.1, dl.2⟩ else none))

/-- The sort key of bySize.Less (source lines 145-147): Size times the
member count. -/
def gweight (g : Info) : Int := g.Size * g.Names.length

/-- The order imposed by sort.Sort(sort.Reverse(bySize dupes)): descending by
gweight. -/
def infoGe (g1 g2 : Info) : Prop := gweight g2 ≤ gweight g1

instance : DecidableRel infoGe := fun g1 g2 => Int.decLe (gweight g2) (gweight g1)

instance : IsTotal Info infoGe := ⟨fun a b => (le_total (gweight b) (gweight a)).imp id id⟩

instance : IsTrans Info infoGe := ⟨fun _ _ _ h1 h2 => le_trans h2 h1⟩

/-- Model of sort.Sort(sort.Reverse(bySize dupes)) (source line 273): some
comparison sort producing an order descending by gweight; ties land in an
unspecified order, here the stable one. -/
def sortInfos (l : List Info) : List Info := l.insertionSort infoGe

/-- The engine applied to an already-enumerated pending list: resolution,
assembly, sort (source lines 199-274). -/
def dupesOn (fs : List FileEntry) : List Info := sortInfos (collectDupes (runCore fs).files)

mutual
/-- A filesystem tree node: a file with content and readability, an entry
whose lstat fails, or a directory with a readability flag (readDirNames
fails on an unreadable directory) and named children. -/
inductive Node where
  | file : List Nat → Bool → Node
  | statErr : Node
  | dir : Bool → Entries → Node
/-- Named directory entries, in walk order. -/
inductive Entries where
  | nil : Entries
  | cons : String → Node → Entries → Entries
end

/-- pending[path] = size from the walk callback (source line 195): keyed by
path, a repeated path overwrites in place, so overlapping or repeated roots
contribute one record per distinct path. The record carries the disk content
and readability so later hash(path) calls can resolve the path. -/
def pendUpd (pend : List FileEntry) (path : String) (c : List Nat) (r : Bool) :
    List FileEntry :=
  match pend with
  | [] => [⟨path, c, r⟩]
  | e :: t => if e.path = path then ⟨path, c, r⟩ :: t else e :: pendUpd t path c r

mutual
/-- filepath.Walk descending into one node (source lines 191-197 together
with Go's path/filepath.walk): a file is recorded in pending; a node whose
lstat failed makes Walk call the callback with a nil FileInfo, and the
callback's info.IsDir() dereferences nil - a panic, modeled as Except.error;
an unreadable directory is reported to the callback, which ignores the error
and returns nil, so the directory is skipped and the walk continues. -/
def walkNode (path : String) (n : Node) (pend : List FileEntry) :
    Except Unit (List FileEntry) :=
  match n with
  | .file c r => .ok (pendUpd pend path c r)
  | .statErr => .error ()
  | .dir rd es => if rd then walkEntries path es pend else .ok pend
/-- The sibling loop of Go's path/filepath.walk over a directory's entries:
each child is lstat-ed (a failure reaches the callback with nil FileInfo -
the panic above) and recursed into; a panic aborts everything. -/
def walkEntries (dp : String) (es : Entries) (pend : List FileEntry) :
    Except Unit (List FileEntry) :=
  match es with
  | .nil => .ok pend
  | .cons name n rest =>
    match walkNode (dp ++ "/" ++ name) n pend with
    | .error e => .error e
    | .ok pend2 => walkEntries dp rest pend2
end

/-- filepath.Walk on one root (source line 191): lstat of the root itself; a
missing root reaches the callback with nil FileInfo - the nil dereference
panic. Walk's returned error is discarded by the source, so only the panic
escapes. -/
def walkRoot (fss : List (String × Node)) (root : String) (pend : List FileEntry) :
    Except Unit (List FileEntry) :=
  match alistFind? fss root with
  | none => .error ()
  | some n => walkNode root n pend

/-- The enumeration loop over all roots (source lines 190-198), pooling every
root's files into one pending map before any hashing. -/
def walkAll (fss : List (String × Node)) : List String → List FileEntry →
    Except Unit (List FileEntry)
  | [], pend => .ok pend
  | r :: rs, pend =>
    match walkRoot fss r pend with
    | .error e => .error e
    | .ok pend2 => walkAll fss rs pend2

/-- Dupes(roots, progressCb) (source lines 186-275): enumerate all roots into
the pending map, resolve duplicates, assemble and sort groups. The progress
callback is advisory and does not influence the result, so it is not
modeled. A value .error marks the run dying in a panic; the source has no
code path returning a non-nil error value. -/
def DupesFS (roots : List String) (fss : List (String × Node)) : Except Unit (List Info) :=
  match walkAll fss roots [] with
  | .error e => .error e
  | .ok pend => .ok (dupesOn pend)

/-- Whether a run of the modeled Dupes died in a panic. -/
def isPanic {α : Type} : Except Unit α → Bool
  | .error _ => true
  | .ok _ => false

/-- The readability flag recorded on disk for a path, false for a missing
path. -/
def readableAt (fs : List FileEntry) (p : String) : Bool :=
  match fs.find? (fun e => e.path == p) with
  | none => false
  | some e => e.readable

/-- The content recorded on disk for a path. -/
def contentAt (fs : List FileEntry) (p : String) : Option (List Nat) :=
  (fs.find? (fun e => e.path == p)).map FileEntry.content

/-- The byte length recorded on disk for a path, as the walk's int64. -/
def sizeAt (fs : List FileEntry) (p : String) : Option Int :=
  (fs.find? (fun e => e.path == p)).map intSize

section AlistLemmas

variable {κ β : Type} [DecidableEq κ]

theorem alistFind?_mem {l : List (κ × β)} {k : κ} {v : β}
    (h : alistFind? l k = some v) : (k, v) ∈ l := by
  induction l with
  | nil => simp [alistFind?] at h
  | cons kv t ih =>
    obtain ⟨k1, v1⟩ := kv
    simp only [alistFind?] at h
    split at h
    · next heq =>
      obtain rfl : v1 = v := Option.some.inj h
      subst heq
      exact List.mem_cons_self _ _
    · next _ => exact List.mem_cons_of_mem _ (ih h)

theorem alistFind?_none {l : List (κ × β)} {k : κ}
    (h : alistFind? l k = none) : ∀ v, (k, v) ∉ l := by
  intro v hv
  induction l with
  | nil => simp at hv
  | cons kv t ih =>
    obtain ⟨k1, v1⟩ := kv
    simp only [alistFind?] at h
    split at h
    · exact Option.noConfusion h
    · next hne =>
      rcases List.mem_cons.mp hv with h1 | h1
      · exact hne (congrArg Prod.fst h1.symm)
      · exact ih h h1

theorem mem_updateA {l : List (κ × β)} {k k1 : κ} {v v1 : β}
    (hnd : (l.map Prod.fst).Nodup)
    (h : (k1, v1) ∈ updateA l k v) :
    (k1 = k ∧ v1 = v) ∨ ((k1, v1) ∈ l ∧ k1 ≠ k) := by
  induction l with
  | nil =>
    simp only [updateA, List.mem_singleton, Prod.mk.injEq] at h
    exact Or.inl h
  | cons kv t ih =>
    obtain ⟨k2, v2⟩ := kv
    simp only [List.map_cons, List.nodup_cons] at hnd
    simp only [updateA] at h
    split at h
    · next heq =>
      subst heq
      rcases List.mem_cons.mp h with h1 | h1
      · exact Or.inl ⟨congrArg Prod.fst h1, congrArg Prod.snd h1⟩
      · refine Or.inr ⟨List.mem_cons_of_mem _ h1, ?_⟩
        intro hkk
        subst hkk
        exact hnd.1 (List.mem_map_of_mem Prod.fst h1)
    · next hne =>
      rcases List.mem_cons.mp h with h1 | h1
      · obtain rfl : k1 = k2 := congrArg Prod.fst h1
        refine Or.inr ⟨?_, hne⟩
        obtain rfl : v1 = v2 := congrArg Prod.snd h1
        exact List.mem_cons_self _ _
      · rcases ih hnd.2 h1 with h2 | h2
        · exact Or.inl h2
        · exact Or.inr ⟨List.mem_cons_of_mem _ h2.1, h2.2⟩

theorem keys_updateA_sub {l : List (κ × β)} {k : κ} {v : β} {k1 : κ}
    (h : k1 ∈ (updateA l k v).map Prod.fst) : k1 ∈ l.map Prod.fst ∨ k1 = k := by
  induction l with
  | nil =>
    simp only [updateA, List.map_cons, List.map_nil, List.mem_singleton] at h
    exact Or.inr h
  | cons kv t ih =>
    obtain ⟨k2, v2⟩ := kv
    simp only [updateA] at h
    split at h
    · next heq =>
      subst heq
      simp only [List.map_cons, List.mem_cons] at h
      rcases h with h | h
      · exact Or.inr h
      · exact Or.inl (List.mem_cons_of_mem _ h)
    · next _ =>
      simp only [List.map_cons, List.mem_cons] at h
      rcases h with h | h
      · exact Or.inl (by simp [h])
      · rcases ih h with h1 | h1
        · exact Or.inl (List.mem_cons_of_mem _ h1)
        · exact Or.inr h1

theorem keys_updateA_mono {l : List (κ × β)} {k : κ} {v : β} {k1 : κ}
    (h : k1 ∈ l.map Prod.fst) : k1 ∈ (updateA l k v).map Prod.fst := by
  induction l with
  | nil => simp at h
  | cons kv t ih =>
    obtain ⟨k2, v2⟩ := kv
    simp only [List.map_cons, List.mem_cons] at h
    simp only [updateA]
    split
    · next heq =>
      subst heq
      simp only [List.map_cons, List.mem_cons]
      exact h
    · next _ =>
      simp only [List.map_cons, List.mem_cons]
      rcases h with h | h
      · exact Or.inl h
      · exact Or.inr (ih h)

theorem keys_updateA_nodup {l : List (κ × β)} {k : κ} {v : β}
    (hnd : (l.map Prod.fst).Nodup) : ((updateA l k v).map Prod.fst).Nodup := by
  induction l with
  | nil => simp [updateA]
  | cons kv t ih =>
    obtain ⟨k2, v2⟩ := kv
    simp only [List.map_cons, List.nodup_cons] at hnd
    simp only [updateA]
    split
    · next heq =>
      subst heq
      simp only [List.map_cons, List.nodup_cons]
      exact hnd
    · next hne =>
      simp only [List.map_cons, List.nodup_cons]
      refine ⟨fun hmem => ?_, ih hnd.2⟩
      rcases keys_updateA_sub hmem with h1 | h1
      · exact hnd.1 h1
      · exact hne h1

theorem find?_updateA_self {l : List (κ × β)} {k : κ} {v : β} :
    alistFind? (updateA l k v) k = some v := by
  induction l with
  | nil => simp [updateA, alistFind?]
  | cons kv t ih =>
    obtain ⟨k2, v2⟩ := kv
    simp only [updateA]
    split
    · next heq => subst heq; simp [alistFind?]
    · next hne => simp only [alistFind?, if_neg hne]; exact ih

theorem find?_updateA_ne {l : List (κ × β)} {k k1 : κ} {v : β} (h : k1 ≠ k) :
    alistFind? (updateA l k v) k1 = alistFind? l k1 := by
  induction l with
  | nil =>
    simp only [updateA, alistFind?]
    rw [if_neg (fun heq => h heq.symm)]
  | cons kv t ih =>
    obtain ⟨k2, v2⟩ := kv
    simp only [updateA]
    split
    · next heq =>
      subst heq
      simp only [alistFind?]
      rw [if_neg (fun heq : k2 = k1 => h (heq.symm.trans rfl))]
      rw [if_neg (fun heq : k2 = k1 => h (heq.symm.trans rfl))]
    · next hne =>
      simp only [alistFind?]
      split
      · rfl
      · exact ih

/-- With distinct keys, a key determines its binding. -/
theorem mem_keys_unique {l : List (κ × β)} (hnd : (l.map Prod.fst).Nodup)
    {k : κ} {v v1 : β} (h : (k, v) ∈ l) (h1 : (k, v1) ∈ l) : v = v1 := by
  induction l with
  | nil => simp at h
  | cons kv t ih =>
    obtain ⟨k2, v2⟩ := kv
    simp only [List.map_cons, List.nodup_cons] at hnd
    rcases List.mem_cons.mp h with hh | hh
    · rcases List.mem_cons.mp h1 with hh1 | hh1
      · obtain ⟨rfl, rfl⟩ := Prod.mk.injEq .. ▸ hh
        obtain ⟨_, rfl⟩ := Prod.mk.injEq .. ▸ hh1
        rfl
      · exfalso
        obtain ⟨rfl, rfl⟩ := Prod.mk.injEq .. ▸ hh
        exact hnd.1 (List.mem_map_of_mem Prod.fst hh1)
    · rcases List.mem_cons.mp h1 with hh1 | hh1
      · exfalso
        obtain ⟨rfl, rfl⟩ := Prod.mk.injEq .. ▸ hh1
        exact hnd.1 (List.mem_map_of_mem Prod.fst hh)
      · exact ih hnd.2 hh hh1

theorem mem_find?_of_keys_nodup {l : List (κ × β)} (hnd : (l.map Prod.fst).Nodup)
    {k : κ} {v : β} (h : (k, v) ∈ l) : alistFind? l k = some v := by
  induction l with
  | nil => simp at h
  | cons kv t ih =>
    obtain ⟨k2, v2⟩ := kv
    simp only [List.map_cons, List.nodup_cons] at hnd
    rcases List.mem_cons.mp h with hh | hh
    · obtain ⟨rfl, rfl⟩ := Prod.mk.injEq .. ▸ hh
      simp [alistFind?]
    · by_cases hk : k2 = k
      · exfalso
        apply hnd.1
        rw [hk]
        exact List.mem_map_of_mem Prod.fst hh
      · simp only [alistFind?, if_neg hk]
        exact ih hnd.2 hh

end AlistLemmas

/-- Paths held unconfirmed in a first-pass map (the non-sentinel values). -/
def fpPaths (fp : List (List Nat × String)) : List String :=
  fp.filterMap (fun dp => if dp.2 = "" then none else some dp.2)

/-- All paths filed in a full-hash map. -/
def fhPaths (fh : List (List Nat × List String)) : List String :=
  (fh.map Prod.snd).flatten

/-- All paths a bucket holds in any of its three slots. -/
def bPaths (b : Bucket) : List String :=
  (if b.unhashed = "" then [] else [b.unhashed]) ++ fpPaths b.firstPass ++ fhPaths b.fullHashes

theorem fpPaths_updateA_fresh {fp : List (List Nat × String)} {d : List Nat} {p : String}
    (h : alistFind? fp d = none) :
    fpPaths (updateA fp d p) = fpPaths fp ++ (if p = "" then [] else [p]) := by
  induction fp with
  | nil =>
    by_cases hp : p = "" <;> simp [updateA, fpPaths, hp]
  | cons dq t ih =>
    obtain ⟨d1, q1⟩ := dq
    simp only [alistFind?] at h
    split at h
    · exact Option.noConfusion h
    · next hne =>
      simp only [updateA, if_neg hne, fpPaths, List.filterMap_cons]
      simp only [fpPaths] at ih
      rw [ih h]
      split <;> simp

theorem fpPaths_updateA_clear {fp : List (List Nat × String)} {d : List Nat} {p : String}
    (hnd : (fp.map Prod.fst).Nodup) (h : alistFind? fp d = some p) :
    ∃ A B, fpPaths fp = A ++ (if p = "" then [] else [p]) ++ B ∧
      fpPaths (updateA fp d "") = A ++ B := by
  induction fp with
  | nil => simp [alistFind?] at h
  | cons dq t ih =>
    obtain ⟨d1, q1⟩ := dq
    simp only [List.map_cons, List.nodup_cons] at hnd
    simp only [alistFind?] at h
    by_cases hd : d1 = d
    · rw [if_pos hd] at h
      obtain rfl : p = q1 := (Option.some.inj h).symm
      refine ⟨[], fpPaths t, ?_, ?_⟩
      · by_cases hq : p = "" <;> simp [fpPaths, List.filterMap_cons, hq]
      · simp [updateA, if_pos hd, fpPaths, List.filterMap_cons]
    · rw [if_neg hd] at h
      obtain ⟨A, B, h1, h2⟩ := ih hnd.2 h
      by_cases hq : q1 = ""
      · refine ⟨A, B, ?_, ?_⟩
        · simp only [fpPaths, List.filterMap_cons, if_pos hq]
          simp only [fpPaths] at h1
          exact h1
        · simp only [updateA, if_neg hd, fpPaths, List.filterMap_cons, if_pos hq]
          simp only [fpPaths] at h2
          exact h2
      · refine ⟨q1 :: A, B, ?_, ?_⟩
        · simp only [fpPaths, List.filterMap_cons, if_neg hq]
          simp only [fpPaths] at h1
          rw [h1]; simp
        · simp only [updateA, if_neg hd, fpPaths, List.filterMap_cons, if_neg hq]
          simp only [fpPaths] at h2
          rw [h2]; simp

theorem fpPaths_mem {fp : List (List Nat × String)} {p : String}
    (h : p ∈ fpPaths fp) : p ≠ "" ∧ ∃ d, (d, p) ∈ fp := by
  simp only [fpPaths, List.mem_filterMap] at h
  obtain ⟨⟨d, q⟩, hmem, hq⟩ := h
  by_cases hqe : q = ""
  · simp [hqe] at hq
  · simp only [if_neg hqe, Option.some.injEq] at hq
    subst hq
    exact ⟨hqe, d, hmem⟩

theorem mem_fpPaths {fp : List (List Nat × String)} {d : List Nat} {p : String}
    (h : (d, p) ∈ fp) (hp : p ≠ "") : p ∈ fpPaths fp := by
  simp only [fpPaths, List.mem_filterMap]
  exact ⟨(d, p), h, by simp [hp]⟩

theorem fhPaths_mem {fh : List (List Nat × List String)} {p : String}
    (h : p ∈ fhPaths fh) : ∃ d l, (d, l) ∈ fh ∧ p ∈ l := by
  simp only [fhPaths, List.mem_flatten, List.mem_map] at h
  obtain ⟨l, ⟨⟨d, l1⟩, hmem, hl⟩, hp⟩ := h
  subst hl
  exact ⟨d, l1, hmem, hp⟩

theorem mem_fhPaths {fh : List (List Nat × List String)} {d : List Nat} {l : List String}
    {p : String} (h : (d, l) ∈ fh) (hp : p ∈ l) : p ∈ fhPaths fh := by
  simp only [fhPaths, List.mem_flatten, List.mem_map]
  exact ⟨l, ⟨(d, l), h, rfl⟩, hp⟩

theorem fhPaths_appendFH {fh : List (List Nat × List String)} {d : List Nat} {p : String} :
    List.Perm (fhPaths (appendFH fh d p)) (fhPaths fh ++ [p]) := by
  unfold appendFH
  induction fh with
  | nil => simp [updateA, alistFind?, fhPaths]
  | cons dl t ih =>
    obtain ⟨d1, l1⟩ := dl
    simp only [alistFind?]
    by_cases hd : d1 = d
    · rw [if_pos hd]
      simp only [Option.getD_some, updateA, if_pos hd, fhPaths, List.map_cons,
        List.flatten_cons]
      have h1 : List.Perm (l1 ++ ([p] ++ (List.map Prod.snd t).flatten))
          (l1 ++ ((List.map Prod.snd t).flatten ++ [p])) :=
        List.Perm.append_left l1 List.perm_append_comm
      have h2 : (l1 ++ [p]) ++ (List.map Prod.snd t).flatten =
          l1 ++ ([p] ++ (List.map Prod.snd t).flatten) := by simp
      have h3 : l1 ++ ((List.map Prod.snd t).flatten ++ [p]) =
          (l1 ++ (List.map Prod.snd t).flatten) ++ [p] := by simp
      rw [h2, ← h3]
      exact h1
    · rw [if_neg hd]
      simp only [updateA, if_neg hd, fhPaths, List.map_cons, List.flatten_cons]
      simp only [fhPaths] at ih
      have h1 : List.Perm
          (l1 ++ (List.map Prod.snd (updateA t d (((alistFind? t d).getD []) ++ [p]))).flatten)
          (l1 ++ ((List.map Prod.snd t).flatten ++ [p])) := List.Perm.append_left l1 ih
      have h3 : l1 ++ ((List.map Prod.snd t).flatten ++ [p]) =
          (l1 ++ (List.map Prod.snd t).flatten) ++ [p] := by simp
      rw [← h3]
      exact h1

section HashLemmas

/-- With pairwise-distinct paths, looking a member's path up on disk finds
that member. -/
theorem find?_path_self {fs : List FileEntry} (hnd : (fs.map FileEntry.path).Nodup)
    {e : FileEntry} (he : e ∈ fs) : fs.find? (fun f => f.path == e.path) = some e := by
  induction fs with
  | nil => simp at he
  | cons f t ih =>
    simp only [List.map_cons, List.nodup_cons] at hnd
    rw [List.find?_cons]
    by_cases hfe : f.path = e.path
    · rcases List.mem_cons.mp he with rfl | hmem
      · simp
      · exfalso
        apply hnd.1
        rw [hfe]
        exact List.mem_map_of_mem FileEntry.path hmem
    · have : (f.path == e.path) = false := beq_eq_false_iff_ne.mpr hfe
      rw [this]
      rcases List.mem_cons.mp he with rfl | hmem
      · exact absurd rfl hfe
      · exact ih hnd.2 hmem

/-- With pairwise-distinct paths, equal paths mean equal entries. -/
theorem path_inj {fs : List FileEntry} (hnd : (fs.map FileEntry.path).Nodup)
    {e f : FileEntry} (he : e ∈ fs) (hf : f ∈ fs) (hp : e.path = f.path) : e = f :=
  List.inj_on_of_nodup_map hnd he hf hp

/-- A successful first-pass hash of an on-disk entry yields its 4096-byte
digest: min(initialBlocksize, size) never exceeds the true length, covering
both the CopyN and the whole-file branches. -/
theorem goHash_pref {fs : List FileEntry} {e : FileEntry}
    (h : fs.find? (fun f => f.path == e.path) = some e) :
    goHash fs e.path (min 4096 (intSize e)) =
      if e.readable then some (pdig e) else none := by
  simp only [goHash, h]
  by_cases hr : e.readable
  · rw [if_pos hr, if_pos hr]
    have hlen : (0 : Int) ≤ e.content.length := Int.ofNat_nonneg _
    by_cases hpos : (0 : Int) < min 4096 (intSize e)
    · rw [if_pos hpos]
      have hminle : min 4096 (intSize e) ≤ (e.content.length : Int) := by
        unfold intSize
        exact min_le_right _ _
      rw [if_pos hminle]
      congr 1
      unfold pdig
      have htn : (min 4096 (intSize e)).toNat = min 4096 e.content.length := by
        unfold intSize
        omega
      rw [htn]
      rcases le_total e.content.length 4096 with hle | hle
      · rw [min_eq_right hle, List.take_of_length_le (le_refl _),
          List.take_of_length_le hle]
      · rw [min_eq_left hle]
    · rw [if_neg hpos]
      have hz : e.content.length = 0 := by
        unfold intSize at hpos
        omega
      have hnil : e.content = [] := List.eq_nil_of_length_eq_zero hz
      unfold pdig
      rw [hnil, List.take_nil]
  · rw [if_neg hr, if_neg hr]

/-- A full-content hash (blocksize -1) of an on-disk entry yields its whole
content when readable. -/
theorem goHash_fullc {fs : List FileEntry} {e : FileEntry} {p : String}
    (h : fs.find? (fun f => f.path == p) = some e) :
    goHash fs p (-1) = if e.readable then some e.content else none := by
  simp only [goHash, h]
  by_cases hr : e.readable
  · rw [if_pos hr, if_pos hr, if_neg (by omega : ¬ (0 : Int) < -1)]
  · rw [if_neg hr, if_neg hr]

/-- Any successful hash call certifies that the path is on disk and
readable. -/
theorem goHash_some {fs : List FileEntry} {p : String} {bs : Int} {d : List Nat}
    (h : goHash fs p bs = some d) :
    ∃ e ∈ fs, e.path = p ∧ e.readable = true := by
  rcases hf : fs.find? (fun f => f.path == p) with _ | e
  · simp only [goHash, hf] at h; exact Option.noConfusion h
  · simp only [goHash, hf] at h
    have hmem := List.mem_of_find?_eq_some hf
    have hpath : e.path = p := by
      have := List.find?_some hf
      exact eq_of_beq this
    by_cases hr : e.readable
    · exact ⟨e, hmem, hpath, hr⟩
    · rw [if_neg hr] at h; exact Option.noConfusion h

end HashLemmas

section Invariant

theorem key_mem_exists {κ β : Type} [DecidableEq κ] {l : List (κ × β)} {k : κ}
    (h : k ∈ l.map Prod.fst) : ∃ v, (k, v) ∈ l := by
  rcases List.mem_map.mp h with ⟨⟨k1, v⟩, hmem, hk⟩
  exact ⟨v, hk ▸ hmem⟩

/-- A hash-log entry is justified when it names a processed file sharing its
size with a distinct processed file: hashing only ever happens inside a size
bucket holding at least two files. -/
def logJust (done : List FileEntry) (pe : String × Int) : Prop :=
  ∃ e ∈ done, e.path = pe.1 ∧ ∃ f ∈ done, f.path ≠ e.path ∧ intSize f = intSize e

theorem logJust_mono {done : List FileEntry} {l : List FileEntry} {pe : String × Int}
    (h : logJust done pe) : logJust (done ++ l) pe := by
  obtain ⟨e, he, hp, f, hf, hfp, hfs⟩ := h
  exact ⟨e, List.mem_append_left _ he, hp, f, List.mem_append_left _ hf, hfp, hfs⟩

/-- The structural invariant one size bucket maintains over the processed
prefix of the pending list: every held path belongs to a processed file of
the bucket's size, hashed slots certify readability and the respective
digest, the source's panic guard holds (a pending unhashed file means empty
hash maps), stored digests are map keys at most once, no path is held twice,
and the bucket's size is the size of some processed file. -/
structure BucketInv (done : List FileEntry) (s : Int) (b : Bucket) : Prop where
  uMem : b.unhashed ≠ "" → ∃ e ∈ done, e.path = b.unhashed ∧ intSize e = s
  uEmpty : b.unhashed ≠ "" → b.firstPass = [] ∧ b.fullHashes = []
  fpMem : ∀ d p, (d, p) ∈ b.firstPass → p ≠ "" →
    ∃ e ∈ done, e.path = p ∧ intSize e = s ∧ e.readable = true ∧ pdig e = d
  fhMem : ∀ d l, (d, l) ∈ b.fullHashes → ∀ p ∈ l,
    ∃ e ∈ done, e.path = p ∧ intSize e = s ∧ e.readable = true ∧ e.content = d
  fpK : (b.firstPass.map Prod.fst).Nodup
  fhK : (b.fullHashes.map Prod.fst).Nodup
  fpND : (fpPaths b.firstPass).Nodup
  fhND : (fhPaths b.fullHashes).Nodup
  disjFpFh : ∀ q ∈ fpPaths b.firstPass, q ∉ fhPaths b.fullHashes
  occupied : ∃ e ∈ done, intSize e = s

/-- The whole-state invariant over the processed prefix of the pending
list. -/
structure Inv1 (done : List FileEntry) (st : CoreState) : Prop where
  keysND : (st.files.map Prod.fst).Nodup
  buckets : ∀ s b, (s, b) ∈ st.files → BucketInv done s b
  covers : ∀ e ∈ done, ∃ b, (intSize e, b) ∈ st.files
  logOK : ∀ pe ∈ st.hashLog, logJust done pe

theorem BucketInv.mono {done : List FileEntry} {l : List FileEntry} {s : Int} {b : Bucket}
    (h : BucketInv done s b) : BucketInv (done ++ l) s b := by
  refine ⟨?_, h.uEmpty, ?_, ?_, h.fpK, h.fhK, h.fpND, h.fhND, h.disjFpFh, ?_⟩
  · intro hu
    obtain ⟨e, he, h1, h2⟩ := h.uMem hu
    exact ⟨e, List.mem_append_left _ he, h1, h2⟩
  · intro d p hdp hp
    obtain ⟨e, he, h1⟩ := h.fpMem d p hdp hp
    exact ⟨e, List.mem_append_left _ he, h1⟩
  · intro d ll hdl p hp
    obtain ⟨e, he, h1⟩ := h.fhMem d ll hdl p hp
    exact ⟨e, List.mem_append_left _ he, h1⟩
  · obtain ⟨e, he, h1⟩ := h.occupied
    exact ⟨e, List.mem_append_left _ he, h1⟩

/-- Every path a bucket holds in its first-pass map is a processed path. -/
theorem fpPaths_origin {done : List FileEntry} {s : Int} {b : Bucket}
    (hb : BucketInv done s b) {q : String} (hq : q ∈ fpPaths b.firstPass) :
    ∃ e ∈ done, e.path = q := by
  obtain ⟨hne, d, hdq⟩ := fpPaths_mem hq
  obtain ⟨e, he, h1, _⟩ := hb.fpMem d q hdq hne
  exact ⟨e, he, h1⟩

/-- Every path a bucket holds in its full-hash map is a processed path. -/
theorem fhPaths_origin {done : List FileEntry} {s : Int} {b : Bucket}
    (hb : BucketInv done s b) {q : String} (hq : q ∈ fhPaths b.fullHashes) :
    ∃ e ∈ done, e.path = q := by
  obtain ⟨d, l, hdl, hql⟩ := fhPaths_mem hq
  obtain ⟨e, he, h1, _⟩ := hb.fhMem d l hdl q hql
  exact ⟨e, he, h1⟩

/-- Lifting a per-bucket update into the whole-state invariant: putB stores
one rebuilt bucket at the current size and appends justified log entries. -/
theorem inv1_putB {done : List FileEntry} {cur : FileEntry} {st : CoreState}
    {b : Bucket} {L : List (String × Int)}
    (inv : Inv1 done st)
    (hb : BucketInv (done ++ [cur]) (intSize cur) b)
    (hL : ∀ pe ∈ L, logJust (done ++ [cur]) pe) :
    Inv1 (done ++ [cur]) (putB st (intSize cur) b L) := by
  refine ⟨keys_updateA_nodup inv.keysND, ?_, ?_, ?_⟩
  · intro s1 b1 hmem
    rcases mem_updateA inv.keysND hmem with ⟨rfl, rfl⟩ | ⟨hmem1, _⟩
    · exact hb
    · exact (inv.buckets s1 b1 hmem1).mono
  · intro e he
    rcases List.mem_append.mp he with he1 | he1
    · obtain ⟨b0, hb0⟩ := inv.covers e he1
      have : intSize e ∈ (updateA st.files (intSize cur) b).map Prod.fst :=
        keys_updateA_mono (List.mem_map_of_mem Prod.fst hb0)
      exact key_mem_exists this
    · obtain rfl : e = cur := List.mem_singleton.mp he1
      exact ⟨b, alistFind?_mem find?_updateA_self⟩
  · intro pe hpe
    rcases List.mem_append.mp hpe with h1 | h1
    · exact logJust_mono (inv.logOK pe h1)
    · exact hL pe h1

theorem nodup_append_singleton {α : Type} {l : List α} {a : α}
    (hl : l.Nodup) (ha : a ∉ l) : (l ++ [a]).Nodup := by
  rw [List.nodup_append]
  refine ⟨hl, List.nodup_singleton a, ?_⟩
  intro x hx hxa
  rw [List.mem_singleton.mp hxa] at hx
  exact ha hx

theorem mem_of_perm_append {α : Type} {l1 l2 : List α} {a q : α}
    (hperm : List.Perm l1 (l2 ++ [a])) (hq : q ∈ l1) : q ∈ l2 ∨ q = a := by
  have := hperm.mem_iff.mp hq
  rcases List.mem_append.mp this with h | h
  · exact Or.inl h
  · exact Or.inr (List.mem_singleton.mp h)

end Invariant

section StepEquations

variable {fs : List FileEntry} {st : CoreState} {cur : FileEntry} {hs : Bucket}
variable {lg : List (String × Int)} {s1 s2 sc sp : List Nat} {c : String}

theorem step_eq_create (h : alistFind? st.files (intSize cur) = none) :
    step fs st cur = putB st (intSize cur) ⟨cur.path, [], []⟩ [] := by
  simp [step, h, putB]

theorem step_eq_pend_fail (h : alistFind? st.files (intSize cur) = some hs)
    (hu : ¬ hs.unhashed = "")
    (hg : goHash fs hs.unhashed (min 4096 (intSize cur)) = none) :
    step fs st cur = putB st (intSize cur) hs [(hs.unhashed, min 4096 (intSize cur))] := by
  simp only [step, h, hg, if_neg hu]

theorem step_eq_pend_ok (h : alistFind? st.files (intSize cur) = some hs)
    (hu : ¬ hs.unhashed = "")
    (hg : goHash fs hs.unhashed (min 4096 (intSize cur)) = some s1) :
    step fs st cur = stepB fs st cur.path (intSize cur)
      ⟨"", updateA hs.firstPass s1 hs.unhashed, hs.fullHashes⟩
      [(hs.unhashed, min 4096 (intSize cur))] := by
  simp only [step, h, hg, if_neg hu]

theorem step_eq_nopend (h : alistFind? st.files (intSize cur) = some hs)
    (hu : hs.unhashed = "") :
    step fs st cur = stepB fs st cur.path (intSize cur) hs [] := by
  simp only [step, h, if_pos hu]

theorem stepB_eq_fail {path : String} {size : Int}
    (hg : goHash fs path (min 4096 size) = none) :
    stepB fs st path size hs lg = putB st size hs (lg ++ [(path, min 4096 size)]) := by
  simp only [stepB, hg]

theorem stepB_eq_fresh {path : String} {size : Int}
    (hg : goHash fs path (min 4096 size) = some s2)
    (hfp : alistFind? hs.firstPass s2 = none) :
    stepB fs st path size hs lg =
      putB st size { hs with firstPass := updateA hs.firstPass s2 path }
        (lg ++ [(path, min 4096 size)]) := by
  simp only [stepB, hg, hfp]

theorem stepB_eq_resolved {path : String} {size : Int}
    (hg : goHash fs path (min 4096 size) = some s2)
    (hfp : alistFind? hs.firstPass s2 = some "") :
    stepB fs st path size hs lg = stepC fs st path size hs (lg ++ [(path, min 4096 size)]) := by
  simp only [stepB, hg, hfp]
  simp

theorem stepB_eq_promote_fail {path : String} {size : Int}
    (hg : goHash fs path (min 4096 size) = some s2)
    (hfp : alistFind? hs.firstPass s2 = some c) (hc : ¬ c = "")
    (hgc : goHash fs c (-1) = none) :
    stepB fs st path size hs lg =
      putB st size { hs with firstPass := updateA hs.firstPass s2 "" }
        (lg ++ [(path, min 4096 size), (c, -1)]) := by
  simp only [stepB, hg, hfp, if_neg hc, hgc]

theorem stepB_eq_promote {path : String} {size : Int}
    (hg : goHash fs path (min 4096 size) = some s2)
    (hfp : alistFind? hs.firstPass s2 = some c) (hc : ¬ c = "")
    (hgc : goHash fs c (-1) = some sc) :
    stepB fs st path size hs lg =
      stepC fs st path size
        ⟨hs.unhashed, updateA hs.firstPass s2 "", appendFH hs.fullHashes sc c⟩
        (lg ++ [(path, min 4096 size), (c, -1)]) := by
  simp only [stepB, hg, hfp, if_neg hc, hgc]

theorem stepC_eq_fail {path : String} {size : Int}
    (hg : goHash fs path (-1) = none) :
    stepC fs st path size hs lg = putB st size hs (lg ++ [(path, -1)]) := by
  simp only [stepC, hg]

theorem stepC_eq_ok {path : String} {size : Int}
    (hg : goHash fs path (-1) = some sp) :
    stepC fs st path size hs lg =
      putB st size { hs with fullHashes := appendFH hs.fullHashes sp path }
        (lg ++ [(path, -1)]) := by
  simp only [stepC, hg]

end StepEquations

section BucketTransitions

/-- Membership in an appendFH result: either an untouched old binding, or the
extended binding at the appended digest. -/
theorem appendFH_cases {fh : List (List Nat × List String)} {d0 : List Nat} {q : String}
    (hK : (fh.map Prod.fst).Nodup) {d1 : List Nat} {l1 : List String}
    (h : (d1, l1) ∈ appendFH fh d0 q) :
    (d1 = d0 ∧ l1 = ((alistFind? fh d0).getD []) ++ [q]) ∨ ((d1, l1) ∈ fh ∧ d1 ≠ d0) := by
  unfold appendFH at h
  rcases mem_updateA hK h with ⟨rfl, rfl⟩ | ⟨hm, hne⟩
  · exact Or.inl ⟨rfl, rfl⟩
  · exact Or.inr ⟨hm, hne⟩

/-- A fresh size creates a bucket holding only the current file as the
pending unhashed member. -/
theorem bucketInv_create {done : List FileEntry} {cur : FileEntry} :
    BucketInv (done ++ [cur]) (intSize cur) ⟨cur.path, [], []⟩ := by
  refine ⟨?_, fun _ => ⟨rfl, rfl⟩, ?_, ?_, ?_, ?_, ?_, ?_, ?_, ?_⟩
  · intro _
    exact ⟨cur, List.mem_append_right _ (List.mem_singleton_self _), rfl, rfl⟩
  · intro d p hdp _
    simp at hdp
  · intro d l hdl p hp
    simp at hdl
  · simp
  · simp
  · simp [fpPaths]
  · simp [fhPaths]
  · intro q hq
    simp [fpPaths] at hq
  · exact ⟨cur, List.mem_append_right _ (List.mem_singleton_self _), rfl⟩

/-- First-pass hashing the pending unhashed file: by the (unreachable) panic
guard the hash maps were empty, so the bucket becomes a single unconfirmed
first-pass binding. -/
theorem bucketInv_phase1 {done : List FileEntry} {s : Int} {hs : Bucket} {d : List Nat}
    {eU : FileEntry}
    (hb : BucketInv done s hs) (hu : ¬ hs.unhashed = "")
    (heU : eU ∈ done) (hpU : eU.path = hs.unhashed) (hsU : intSize eU = s)
    (hrU : eU.readable = true) (hdU : pdig eU = d) :
    BucketInv done s ⟨"", updateA hs.firstPass d hs.unhashed, hs.fullHashes⟩ := by
  obtain ⟨hfp0, hfh0⟩ := hb.uEmpty hu
  rw [hfp0, hfh0]
  simp only [updateA]
  refine ⟨fun h => absurd rfl h, fun h => absurd rfl h, ?_, ?_, ?_, ?_, ?_, ?_, ?_, hb.occupied⟩
  · intro d1 p hdp hp
    simp only [List.mem_singleton, Prod.mk.injEq] at hdp
    obtain ⟨rfl, rfl⟩ := hdp
    exact ⟨eU, heU, hpU, hsU, hrU, hdU⟩
  · intro d1 l hdl p hp
    simp at hdl
  · simp
  · simp
  · simp [fpPaths, hu]
  · simp [fhPaths]
  · intro q hq
    simp [fhPaths]

/-- A first-pass digest unseen in the bucket stores the current file as
unconfirmed. -/
theorem bucketInv_fpInsert {done : List FileEntry} {cur : FileEntry} {b : Bucket}
    {d : List Nat}
    (hb : BucketInv done (intSize cur) b)
    (hbu : b.unhashed = "")
    (hfresh : ∀ e ∈ done, e.path ≠ cur.path)
    (hkey : alistFind? b.firstPass d = none)
    (hrd : cur.readable = true) (hpd : pdig cur = d) :
    BucketInv (done ++ [cur]) (intSize cur)
      { b with firstPass := updateA b.firstPass d cur.path } := by
  have hCurDone : cur ∈ done ++ [cur] := List.mem_append_right _ (List.mem_singleton_self _)
  have hnotfp : cur.path ∉ fpPaths b.firstPass := by
    intro hmem
    obtain ⟨e, he, hp⟩ := fpPaths_origin hb hmem
    exact hfresh e he hp
  have hnotfh : cur.path ∉ fhPaths b.fullHashes := by
    intro hmem
    obtain ⟨e, he, hp⟩ := fhPaths_origin hb hmem
    exact hfresh e he hp
  refine ⟨fun h => absurd hbu h, fun h => absurd hbu h, ?_, ?_, ?_, hb.fhK, ?_, hb.fhND,
    ?_, hb.mono.occupied⟩
  · intro d1 p hdp hp
    rcases mem_updateA hb.fpK hdp with ⟨rfl, rfl⟩ | ⟨hm, _⟩
    · exact ⟨cur, hCurDone, rfl, rfl, hrd, hpd⟩
    · obtain ⟨e, he, h1⟩ := hb.fpMem d1 p hm hp
      exact ⟨e, List.mem_append_left _ he, h1⟩
  · intro d1 l hdl p hp
    obtain ⟨e, he, h1⟩ := hb.fhMem d1 l hdl p hp
    exact ⟨e, List.mem_append_left _ he, h1⟩
  · exact keys_updateA_nodup hb.fpK
  · rw [fpPaths_updateA_fresh hkey]
    by_cases hcp : cur.path = ""
    · simp only [if_pos hcp, List.append_nil]
      exact hb.fpND
    · simp only [if_neg hcp]
      exact nodup_append_singleton hb.fpND hnotfp
  · intro q hq
    rw [fpPaths_updateA_fresh hkey] at hq
    rcases List.mem_append.mp hq with h1 | h1
    · exact hb.disjFpFh q h1
    · by_cases hcp : cur.path = ""
      · simp [if_pos hcp] at h1
      · simp only [if_neg hcp, List.mem_singleton] at h1
        exact h1 ▸ hnotfh

/-- Clearing a first-pass slot (marking its digest group resolved) keeps the
invariant; the bucket cannot have had a pending unhashed member. -/
theorem bucketInv_fpClear {done : List FileEntry} {s : Int} {b : Bucket}
    {d : List Nat} {c : String}
    (hb : BucketInv done s b)
    (hfind : alistFind? b.firstPass d = some c) :
    BucketInv done s { b with firstPass := updateA b.firstPass d "" } := by
  have hbu : b.unhashed = "" := by
    by_contra h
    rw [(hb.uEmpty h).1] at hfind
    exact Option.noConfusion hfind
  obtain ⟨A, B, hAB, hAB2⟩ := fpPaths_updateA_clear hb.fpK hfind
  have hsubfp : ∀ q ∈ fpPaths (updateA b.firstPass d ""), q ∈ fpPaths b.firstPass := by
    intro q hq
    rw [hAB2] at hq
    rw [hAB]
    rcases List.mem_append.mp hq with h1 | h1
    · exact List.mem_append_left _ (List.mem_append_left _ h1)
    · exact List.mem_append_right _ h1
  refine ⟨fun h => absurd hbu h, fun h => absurd hbu h, ?_, hb.fhMem, ?_, hb.fhK,
    ?_, hb.fhND, ?_, hb.occupied⟩
  · intro d1 p hdp hp
    rcases mem_updateA hb.fpK hdp with ⟨rfl, rfl⟩ | ⟨hm, _⟩
    · exact absurd rfl hp
    · exact hb.fpMem d1 p hm hp
  · exact keys_updateA_nodup hb.fpK
  · rw [hAB2]
    have : List.Sublist (A ++ B) (A ++ ((if c = "" then [] else [c]) ++ B)) :=
      List.Sublist.append_left (List.sublist_append_right _ _) A
    refine List.Nodup.sublist this ?_
    rw [← List.append_assoc, ← hAB]
    exact hb.fpND
  · intro q hq
    exact hb.disjFpFh q (hsubfp q hq)

/-- Promoting a first-pass collision: the previously unconfirmed path moves
from the first-pass map into the full-hash map under its full digest. -/
theorem bucketInv_promote {done : List FileEntry} {s : Int} {b : Bucket}
    {d sc : List Nat} {c : String} {eC : FileEntry}
    (hb : BucketInv done s b)
    (hfind : alistFind? b.firstPass d = some c) (hc : ¬ c = "")
    (heC : eC ∈ done) (hpC : eC.path = c) (hszC : intSize eC = s)
    (hrdC : eC.readable = true) (hcoC : eC.content = sc) :
    BucketInv done s
      ⟨b.unhashed, updateA b.firstPass d "", appendFH b.fullHashes sc c⟩ := by
  have hbu : b.unhashed = "" := by
    by_contra h
    rw [(hb.uEmpty h).1] at hfind
    exact Option.noConfusion hfind
  have hcfp : c ∈ fpPaths b.firstPass := mem_fpPaths (alistFind?_mem hfind) hc
  have hcfh : c ∉ fhPaths b.fullHashes := hb.disjFpFh c hcfp
  obtain ⟨A, B, hAB, hAB2⟩ := fpPaths_updateA_clear hb.fpK hfind
  rw [if_neg hc] at hAB
  have hcAB : c ∉ A ++ B := by
    intro hmem
    have hnd := hb.fpND
    rw [hAB] at hnd
    rcases List.mem_append.mp hmem with h1 | h1
    · have h2 : (A ++ [c]).Nodup := (List.nodup_append.mp hnd).1
      have h3 := (List.nodup_append.mp h2).2.2
      exact h3 h1 (List.mem_singleton_self c)
    · have h3 := (List.nodup_append.mp hnd).2.2
      exact h3 (List.mem_append_right _ (List.mem_singleton_self c)) h1
  refine ⟨fun h => absurd hbu h, fun h => absurd hbu h, ?_, ?_, ?_, ?_, ?_, ?_, ?_, hb.occupied⟩
  · intro d1 p hdp hp
    rcases mem_updateA hb.fpK hdp with ⟨rfl, rfl⟩ | ⟨hm, _⟩
    · exact absurd rfl hp
    · exact hb.fpMem d1 p hm hp
  · intro d1 l hdl p hp
    rcases appendFH_cases hb.fhK hdl with ⟨heq1, heq2⟩ | ⟨hm, _⟩
    · rw [heq2] at hp
      rcases List.mem_append.mp hp with h1 | h1
      · rcases hgd : alistFind? b.fullHashes sc with _ | l0
        · rw [hgd] at h1; simp at h1
        · rw [hgd] at h1
          simp only [Option.getD_some] at h1
          obtain ⟨e, he, h2, h3, h4, h5⟩ := hb.fhMem sc l0 (alistFind?_mem hgd) p h1
          exact ⟨e, he, h2, h3, h4, by rw [heq1]; exact h5⟩
      · obtain rfl : p = c := List.mem_singleton.mp h1
        exact ⟨eC, heC, hpC, hszC, hrdC, by rw [heq1]; exact hcoC⟩
    · exact hb.fhMem d1 l hm p hp
  · exact keys_updateA_nodup hb.fpK
  · exact keys_updateA_nodup hb.fhK
  · rw [hAB2]
    have : List.Sublist (A ++ B) (A ++ ([c] ++ B)) :=
      List.Sublist.append_left (List.sublist_append_right _ _) A
    refine List.Nodup.sublist this ?_
    rw [← List.append_assoc, ← hAB]
    exact hb.fpND
  · refine (fhPaths_appendFH.nodup_iff).mpr ?_
    exact nodup_append_singleton hb.fhND hcfh
  · intro q hq
    rw [hAB2] at hq
    have hqold : q ∈ fpPaths b.firstPass := by
      rw [hAB]
      rcases List.mem_append.mp hq with h1 | h1
      · exact List.mem_append_left _ (List.mem_append_left _ h1)
      · exact List.mem_append_right _ h1
    have hqc : q ≠ c := fun h => hcAB (h ▸ hq)
    intro hmem
    rcases mem_of_perm_append fhPaths_appendFH hmem with h1 | h1
    · exact hb.disjFpFh q hqold h1
    · exact hqc h1

/-- Filing the current file's full digest into the full-hash map. -/
theorem bucketInv_fhAppendCur {done : List FileEntry} {cur : FileEntry} {b : Bucket}
    {sp : List Nat}
    (hb : BucketInv done (intSize cur) b)
    (hbu : b.unhashed = "")
    (hfresh : ∀ e ∈ done, e.path ≠ cur.path)
    (hrd : cur.readable = true) (hco : cur.content = sp) :
    BucketInv (done ++ [cur]) (intSize cur)
      { b with fullHashes := appendFH b.fullHashes sp cur.path } := by
  have hCurDone : cur ∈ done ++ [cur] := List.mem_append_right _ (List.mem_singleton_self _)
  have hnotfp : cur.path ∉ fpPaths b.firstPass := by
    intro hmem
    obtain ⟨e, he, hp⟩ := fpPaths_origin hb hmem
    exact hfresh e he hp
  have hnotfh : cur.path ∉ fhPaths b.fullHashes := by
    intro hmem
    obtain ⟨e, he, hp⟩ := fhPaths_origin hb hmem
    exact hfresh e he hp
  refine ⟨fun h => absurd hbu h, fun h => absurd hbu h, ?_, ?_, hb.fpK, ?_, hb.fpND,
    ?_, ?_, hb.mono.occupied⟩
  · intro d1 p hdp hp
    obtain ⟨e, he, h1⟩ := hb.fpMem d1 p hdp hp
    exact ⟨e, List.mem_append_left _ he, h1⟩
  · intro d1 l hdl p hp
    rcases appendFH_cases hb.fhK hdl with ⟨heq1, heq2⟩ | ⟨hm, _⟩
    · rw [heq2] at hp
      rcases List.mem_append.mp hp with h1 | h1
      · rcases hgd : alistFind? b.fullHashes sp with _ | l0
        · rw [hgd] at h1; simp at h1
        · rw [hgd] at h1
          simp only [Option.getD_some] at h1
          obtain ⟨e, he, h2, h3, h4, h5⟩ := hb.fhMem sp l0 (alistFind?_mem hgd) p h1
          exact ⟨e, List.mem_append_left _ he, h2, h3, h4, by rw [heq1]; exact h5⟩
      · obtain rfl : p = cur.path := List.mem_singleton.mp h1
        exact ⟨cur, hCurDone, rfl, rfl, hrd, by rw [heq1]; exact hco⟩
    · obtain ⟨e, he, h1⟩ := hb.fhMem d1 l hm p hp
      exact ⟨e, List.mem_append_left _ he, h1⟩
  · exact keys_updateA_nodup hb.fhK
  · refine (fhPaths_appendFH.nodup_iff).mpr ?_
    exact nodup_append_singleton hb.fhND hnotfh
  · intro q hq
    intro hmem
    rcases mem_of_perm_append fhPaths_appendFH hmem with h1 | h1
    · exact hb.disjFpFh q hq h1
    · exact hnotfp (h1 ▸ hq)

end BucketTransitions

section StepPreservation

variable {fs done : List FileEntry} {cur : FileEntry} {st : CoreState}

theorem inv1_stepC {b : Bucket} {lg : List (String × Int)}
    (hnd : (fs.map FileEntry.path).Nodup)
    (hcur : cur ∈ fs)
    (hfresh : ∀ e ∈ done, e.path ≠ cur.path)
    (inv : Inv1 done st)
    (hb : BucketInv done (intSize cur) b)
    (hbu : b.unhashed = "")
    (hlg : ∀ pe ∈ lg, logJust (done ++ [cur]) pe) :
    Inv1 (done ++ [cur]) (stepC fs st cur.path (intSize cur) b lg) := by
  have hfindc : fs.find? (fun f => f.path == cur.path) = some cur := find?_path_self hnd hcur
  have justCur : ∀ bs : Int, logJust (done ++ [cur]) (cur.path, bs) := by
    intro bs
    obtain ⟨f, hf, hfs⟩ := hb.occupied
    exact ⟨cur, List.mem_append_right _ (List.mem_singleton_self _), rfl,
      f, List.mem_append_left _ hf, hfresh f hf, hfs⟩
  have hlgC : ∀ pe ∈ lg ++ [(cur.path, -1)], logJust (done ++ [cur]) pe := by
    intro pe hpe
    rcases List.mem_append.mp hpe with h1 | h1
    · exact hlg pe h1
    · obtain rfl := List.mem_singleton.mp h1
      exact justCur (-1)
  rcases hg3 : goHash fs cur.path (-1) with _ | sp
  · rw [stepC_eq_fail hg3]
    exact inv1_putB inv hb.mono hlgC
  · have h1 := goHash_fullc hfindc
    rw [hg3] at h1
    by_cases hrd : cur.readable
    · rw [if_pos hrd] at h1
      have hsp : cur.content = sp := (Option.some.inj h1).symm
      rw [stepC_eq_ok hg3]
      exact inv1_putB inv (bucketInv_fhAppendCur hb hbu hfresh hrd hsp) hlgC
    · rw [if_neg hrd] at h1
      exact Option.noConfusion h1

theorem inv1_stepB {b : Bucket} {lg : List (String × Int)}
    (hnd : (fs.map FileEntry.path).Nodup)
    (hcur : cur ∈ fs)
    (hsubd : ∀ e ∈ done, e ∈ fs)
    (hfresh : ∀ e ∈ done, e.path ≠ cur.path)
    (inv : Inv1 done st)
    (hb : BucketInv done (intSize cur) b)
    (hbu : b.unhashed = "")
    (hlg : ∀ pe ∈ lg, logJust (done ++ [cur]) pe) :
    Inv1 (done ++ [cur]) (stepB fs st cur.path (intSize cur) b lg) := by
  have hfindc : fs.find? (fun f => f.path == cur.path) = some cur := find?_path_self hnd hcur
  have justCur : ∀ bs : Int, logJust (done ++ [cur]) (cur.path, bs) := by
    intro bs
    obtain ⟨f, hf, hfs⟩ := hb.occupied
    exact ⟨cur, List.mem_append_right _ (List.mem_singleton_self _), rfl,
      f, List.mem_append_left _ hf, hfresh f hf, hfs⟩
  have justOld : ∀ (g : FileEntry) (bs : Int), g ∈ done → intSize g = intSize cur →
      logJust (done ++ [cur]) (g.path, bs) := by
    intro g bs hg hgs
    exact ⟨g, List.mem_append_left _ hg, rfl, cur,
      List.mem_append_right _ (List.mem_singleton_self _),
      fun h => hfresh g hg h.symm, hgs.symm⟩
  have hlgB : ∀ pe ∈ lg ++ [(cur.path, min 4096 (intSize cur))],
      logJust (done ++ [cur]) pe := by
    intro pe hpe
    rcases List.mem_append.mp hpe with h1 | h1
    · exact hlg pe h1
    · obtain rfl := List.mem_singleton.mp h1
      exact justCur _
  rcases hg2 : goHash fs cur.path (min 4096 (intSize cur)) with _ | s2
  · rw [stepB_eq_fail hg2]
    exact inv1_putB inv hb.mono hlgB
  · have h1 := goHash_pref hfindc
    rw [hg2] at h1
    by_cases hrd : cur.readable
    · rw [if_pos hrd] at h1
      have hs2 : pdig cur = s2 := (Option.some.inj h1).symm
      rcases hfp : alistFind? b.firstPass s2 with _ | c
      · rw [stepB_eq_fresh hg2 hfp]
        exact inv1_putB inv (bucketInv_fpInsert hb hbu hfresh hfp hrd hs2) hlgB
      · by_cases hc : c = ""
        · subst hc
          rw [stepB_eq_resolved hg2 hfp]
          exact inv1_stepC hnd hcur hfresh inv hb hbu hlgB
        · have hcmem := alistFind?_mem hfp
          obtain ⟨eC, heC, hpC, hszC, hrdC, hpdC⟩ := hb.fpMem s2 c hcmem hc
          have hlgBC : ∀ pe ∈ lg ++ [(cur.path, min 4096 (intSize cur)), (c, -1)],
              logJust (done ++ [cur]) pe := by
            intro pe hpe
            rcases List.mem_append.mp hpe with h2 | h2
            · exact hlg pe h2
            · rcases List.mem_cons.mp h2 with rfl | h3
              · exact justCur _
              · obtain rfl := List.mem_singleton.mp h3
                exact hpC ▸ justOld eC (-1) heC hszC
          rcases hgc : goHash fs c (-1) with _ | sc
          · rw [stepB_eq_promote_fail hg2 hfp hc hgc]
            exact inv1_putB inv (bucketInv_fpClear hb hfp).mono hlgBC
          · have hfindC : fs.find? (fun f => f.path == eC.path) = some eC :=
              find?_path_self hnd (hsubd eC heC)
            have hfindC2 : fs.find? (fun f => f.path == c) = some eC := by
              rw [← hpC]
              exact hfindC
            have h2 := goHash_fullc hfindC2
            rw [hgc, if_pos hrdC] at h2
            have hsc : eC.content = sc := (Option.some.inj h2).symm
            rw [stepB_eq_promote hg2 hfp hc hgc]
            exact inv1_stepC hnd hcur hfresh inv
              (bucketInv_promote hb hfp hc heC hpC hszC hrdC hsc) hbu hlgBC
    · rw [if_neg hrd] at h1
      exact Option.noConfusion h1

theorem inv1_step {rest : List FileEntry}
    (hnd : (fs.map FileEntry.path).Nodup)
    (hsplit : fs = done ++ cur :: rest)
    (inv : Inv1 done st) :
    Inv1 (done ++ [cur]) (step fs st cur) := by
  have hcur : cur ∈ fs := by
    rw [hsplit]
    exact List.mem_append_right _ (List.mem_cons_self _ _)
  have hsubd : ∀ e ∈ done, e ∈ fs := by
    intro e he
    rw [hsplit]
    exact List.mem_append_left _ he
  have hfresh : ∀ e ∈ done, e.path ≠ cur.path := by
    intro e he
    have h1 : (done.map FileEntry.path ++ cur.path :: rest.map FileEntry.path).Nodup := by
      have h0 := hnd
      rw [hsplit] at h0
      simpa using h0
    have h2 := (List.nodup_append.mp h1).2.2
    intro hpe
    exact h2 (hpe ▸ List.mem_map_of_mem FileEntry.path he) (List.mem_cons_self _ _)
  rcases hfind : alistFind? st.files (intSize cur) with _ | hs
  · rw [step_eq_create hfind]
    refine inv1_putB inv bucketInv_create ?_
    intro pe hpe
    simp at hpe
  · have hbs0 := inv.buckets (intSize cur) hs (alistFind?_mem hfind)
    have justOld : ∀ (g : FileEntry) (bs : Int), g ∈ done → intSize g = intSize cur →
        logJust (done ++ [cur]) (g.path, bs) := by
      intro g bs hg hgs
      exact ⟨g, List.mem_append_left _ hg, rfl, cur,
        List.mem_append_right _ (List.mem_singleton_self _),
        fun h => hfresh g hg h.symm, hgs.symm⟩
    by_cases hbu : hs.unhashed = ""
    · rw [step_eq_nopend hfind hbu]
      refine inv1_stepB hnd hcur hsubd hfresh inv hbs0 hbu ?_
      intro pe hpe
      simp at hpe
    · obtain ⟨eU, heU, hpU, hsU⟩ := hbs0.uMem hbu
      have hlgU : ∀ pe ∈ [(hs.unhashed, min 4096 (intSize cur))],
          logJust (done ++ [cur]) pe := by
        intro pe hpe
        obtain rfl := List.mem_singleton.mp hpe
        exact hpU ▸ justOld eU _ heU hsU
      rcases hg1 : goHash fs hs.unhashed (min 4096 (intSize cur)) with _ | s1
      · rw [step_eq_pend_fail hfind hbu hg1]
        exact inv1_putB inv hbs0.mono hlgU
      · have hfindU : fs.find? (fun f => f.path == eU.path) = some eU :=
          find?_path_self hnd (hsubd eU heU)
        have hgU : goHash fs eU.path (min 4096 (intSize eU)) = some s1 := by
          rw [hpU, hsU]
          exact hg1
        have h1 := goHash_pref hfindU
        rw [hgU] at h1
        by_cases hrdU : eU.readable
        · rw [if_pos hrdU] at h1
          have hdU : pdig eU = s1 := (Option.some.inj h1).symm
          rw [step_eq_pend_ok hfind hbu hg1]
          exact inv1_stepB hnd hcur hsubd hfresh inv
            (bucketInv_phase1 hbs0 hbu heU hpU hsU hrdU hdU) rfl hlgU
        · rw [if_neg hrdU] at h1
          exact Option.noConfusion h1

theorem inv1_foldl (hnd : (fs.map FileEntry.path).Nodup) :
    ∀ (rest done : List FileEntry) (st : CoreState),
      fs = done ++ rest → Inv1 done st →
      Inv1 fs (rest.foldl (step fs) st) := by
  intro rest
  induction rest with
  | nil =>
    intro done st hsplit inv
    rw [List.foldl_nil, hsplit, List.append_nil]
    exact inv
  | cons cur rest2 ih =>
    intro done st hsplit inv
    rw [List.foldl_cons]
    refine ih (done ++ [cur]) (step fs st cur) ?_ ?_
    · rw [hsplit]
      simp
    · exact inv1_step hnd hsplit inv

/-- The whole-state invariant holds at the end of the scan. -/
theorem inv1_runCore {fs : List FileEntry} (hnd : (fs.map FileEntry.path).Nodup) :
    Inv1 fs (runCore fs) := by
  have hinit : Inv1 [] ⟨[], []⟩ := by
    refine ⟨List.nodup_nil, ?_, ?_, ?_⟩
    · intro s b h
      simp at h
    · intro e he
      simp at he
    · intro pe hpe
      simp at hpe
  exact inv1_foldl hnd fs [] ⟨[], []⟩ (by simp) hinit

end StepPreservation

section Inv2Def

/-- The completeness invariant one size bucket maintains when every file on
disk is readable: the pending unhashed member is the only processed file of
the bucket's size, every processed file of the size is held somewhere in the
bucket, an unconfirmed first-pass binding is the only processed file of its
prefix class, and every fully hashed file's prefix digest is a first-pass
key. -/
structure BInv2 (done : List FileEntry) (s : Int) (b : Bucket) : Prop where
  uOnly : ¬ b.unhashed = "" → ∀ e ∈ done, intSize e = s → e.path = b.unhashed
  allIn : ∀ e ∈ done, intSize e = s → e.path ∈ bPaths b
  fpUniq : ∀ d p, (d, p) ∈ b.firstPass → ¬ p = "" →
    ∀ e ∈ done, intSize e = s → pdig e = d → e.path = p
  fhKey : ∀ d l, (d, l) ∈ b.fullHashes → ∀ p ∈ l, ∀ e ∈ done, e.path = p →
    ∃ q, (pdig e, q) ∈ b.firstPass

/-- The completeness invariant over all buckets. -/
def Inv2 (done : List FileEntry) (st : CoreState) : Prop :=
  ∀ s b, (s, b) ∈ st.files → BInv2 done s b

theorem mem_bPaths_cases {b : Bucket} {q : String} (h : q ∈ bPaths b) :
    (¬ b.unhashed = "" ∧ q = b.unhashed) ∨ q ∈ fpPaths b.firstPass ∨
      q ∈ fhPaths b.fullHashes := by
  unfold bPaths at h
  rcases List.mem_append.mp h with h1 | h1
  · rcases List.mem_append.mp h1 with h2 | h2
    · by_cases hu : b.unhashed = ""
      · rw [if_pos hu] at h2
        simp at h2
      · rw [if_neg hu] at h2
        exact Or.inl ⟨hu, List.mem_singleton.mp h2⟩
    · exact Or.inr (Or.inl h2)
  · exact Or.inr (Or.inr h1)

theorem mem_bPaths_unh {b : Bucket} (h : ¬ b.unhashed = "") : b.unhashed ∈ bPaths b := by
  unfold bPaths
  exact List.mem_append_left _ (List.mem_append_left _ (by rw [if_neg h]; exact List.mem_singleton_self _))

theorem mem_bPaths_fp {b : Bucket} {q : String} (h : q ∈ fpPaths b.firstPass) :
    q ∈ bPaths b := by
  unfold bPaths
  exact List.mem_append_left _ (List.mem_append_right _ h)

theorem mem_bPaths_fh {b : Bucket} {q : String} (h : q ∈ fhPaths b.fullHashes) :
    q ∈ bPaths b := by
  unfold bPaths
  exact List.mem_append_right _ h

theorem mem_fhPaths_appendFH_old {fh : List (List Nat × List String)} {d : List Nat}
    {p q : String} (h : q ∈ fhPaths fh) : q ∈ fhPaths (appendFH fh d p) :=
  (fhPaths_appendFH).mem_iff.mpr (List.mem_append_left _ h)

theorem mem_fhPaths_appendFH_self {fh : List (List Nat × List String)} {d : List Nat}
    {p : String} : p ∈ fhPaths (appendFH fh d p) :=
  (fhPaths_appendFH).mem_iff.mpr (List.mem_append_right _ (List.mem_singleton_self _))

theorem mem_updateA_of_ne {κ β : Type} [DecidableEq κ] {l : List (κ × β)} {k k1 : κ}
    {v v1 : β} (h : (k1, v1) ∈ l) (hne : k1 ≠ k) : (k1, v1) ∈ updateA l k v := by
  induction l with
  | nil => simp at h
  | cons kv t ih =>
    obtain ⟨k2, v2⟩ := kv
    simp only [updateA]
    split
    · next heq =>
      subst heq
      rcases List.mem_cons.mp h with h1 | h1
      · exact absurd (congrArg Prod.fst h1) hne
      · exact List.mem_cons_of_mem _ h1
    · next _ =>
      rcases List.mem_cons.mp h with h1 | h1
      · exact h1 ▸ List.mem_cons_self _ _
      · exact List.mem_cons_of_mem _ (ih h1)

end Inv2Def

section Inv2Transitions

variable {done : List FileEntry} {cur : FileEntry}

/-- A bucket of a different size is untouched by the current file. -/
theorem binv2_mono_ne {s1 : Int} {b1 : Bucket}
    (h2 : BInv2 done s1 b1) (hb1 : BucketInv done s1 b1)
    (hfresh : ∀ e ∈ done, e.path ≠ cur.path)
    (hsz : intSize cur ≠ s1) : BInv2 (done ++ [cur]) s1 b1 := by
  have hmem : ∀ e ∈ done ++ [cur], intSize e = s1 → e ∈ done := by
    intro e he hes
    rcases List.mem_append.mp he with h1 | h1
    · exact h1
    · obtain rfl := List.mem_singleton.mp h1
      exact absurd hes hsz
  refine ⟨?_, ?_, ?_, ?_⟩
  · intro hu e he hes
    exact h2.uOnly hu e (hmem e he hes) hes
  · intro e he hes
    exact h2.allIn e (hmem e he hes) hes
  · intro d p hdp hp e he hes hpd
    exact h2.fpUniq d p hdp hp e (hmem e he hes) hes hpd
  · intro d l hdl p hpl e he hep
    rcases List.mem_append.mp he with h1 | h1
    · exact h2.fhKey d l hdl p hpl e h1 hep
    · obtain rfl := List.mem_singleton.mp h1
      obtain ⟨e1, he1, hp1, _⟩ := hb1.fhMem d l hdl p hpl
      exact absurd (hp1.trans hep.symm) (hfresh e1 he1)

theorem inv2_putB {st : CoreState} {b : Bucket} {L : List (String × Int)}
    (inv : Inv1 done st) (inv2 : Inv2 done st)
    (hfresh : ∀ e ∈ done, e.path ≠ cur.path)
    (hb2 : BInv2 (done ++ [cur]) (intSize cur) b) :
    Inv2 (done ++ [cur]) (putB st (intSize cur) b L) := by
  intro s1 b1 hmem
  rcases mem_updateA inv.keysND hmem with ⟨rfl, rfl⟩ | ⟨hm, hne1⟩
  · exact hb2
  · exact binv2_mono_ne (inv2 s1 b1 hm) (inv.buckets s1 b1 hm) hfresh
      (fun h => hne1 h.symm)

/-- A fresh size bucket: only the current file has its size. -/
theorem binv2_create
    (hnone : ∀ e ∈ done, intSize e ≠ intSize cur)
    (hcne : ¬ cur.path = "") :
    BInv2 (done ++ [cur]) (intSize cur) ⟨cur.path, [], []⟩ := by
  have hmem : ∀ e ∈ done ++ [cur], intSize e = intSize cur → e = cur := by
    intro e he hes
    rcases List.mem_append.mp he with h1 | h1
    · exact absurd hes (hnone e h1)
    · exact List.mem_singleton.mp h1
  refine ⟨?_, ?_, ?_, ?_⟩
  · intro _ e he hes
    rw [hmem e he hes]
  · intro e he hes
    rw [hmem e he hes]
    exact mem_bPaths_unh hcne
  · intro d p hdp
    simp at hdp
  · intro d l hdl
    simp at hdl

/-- First-pass hashing the pending unhashed file preserves the completeness
invariant. -/
theorem binv2_phase1 {s : Int} {hs : Bucket} {d : List Nat}
    (hb1 : BucketInv done s hs) (hb2 : BInv2 done s hs) (hu : ¬ hs.unhashed = "") :
    BInv2 done s ⟨"", updateA hs.firstPass d hs.unhashed, hs.fullHashes⟩ := by
  obtain ⟨hfp0, hfh0⟩ := hb1.uEmpty hu
  rw [hfp0, hfh0]
  simp only [updateA]
  refine ⟨?_, ?_, ?_, ?_⟩
  · intro h
    exact absurd rfl h
  · intro e he hes
    have := hb2.uOnly hu e he hes
    refine mem_bPaths_fp ?_
    rw [this]
    simp [fpPaths, hu]
  · intro d1 p hdp hp e he hes hpd
    simp only [List.mem_singleton, Prod.mk.injEq] at hdp
    obtain ⟨rfl, rfl⟩ := hdp
    exact hb2.uOnly hu e he hes
  · intro d1 l hdl
    simp at hdl

/-- An unseen first-pass digest: the current file becomes the unconfirmed
member of its prefix class, and it really is the only processed file in that
class. -/
theorem binv2_fpInsert {b : Bucket} {d : List Nat}
    (hb1 : BucketInv done (intSize cur) b) (hb2 : BInv2 done (intSize cur) b)
    (hbu : b.unhashed = "")
    (hinj : ∀ e ∈ done, ∀ f ∈ done, e.path = f.path → e = f)
    (hfresh : ∀ e ∈ done, e.path ≠ cur.path)
    (hkey : alistFind? b.firstPass d = none)
    (hcne : ¬ cur.path = "")
    (hpd : pdig cur = d) :
    BInv2 (done ++ [cur]) (intSize cur)
      { b with firstPass := updateA b.firstPass d cur.path } := by
  refine ⟨fun hu => absurd hbu hu, ?_, ?_, ?_⟩
  · intro e he hes
    rcases List.mem_append.mp he with h1 | h1
    · have h2 := hb2.allIn e h1 hes
      rcases mem_bPaths_cases h2 with ⟨hu, _⟩ | h3 | h3
      · exact absurd hbu hu
      · refine mem_bPaths_fp ?_
        rw [fpPaths_updateA_fresh hkey]
        exact List.mem_append_left _ h3
      · exact mem_bPaths_fh h3
    · obtain rfl := List.mem_singleton.mp h1
      refine mem_bPaths_fp ?_
      rw [fpPaths_updateA_fresh hkey, if_neg hcne]
      exact List.mem_append_right _ (List.mem_singleton_self _)
  · intro d1 p hdp hp e he hes hpd1
    rcases mem_updateA hb1.fpK hdp with ⟨rfl, rfl⟩ | ⟨hm, hne1⟩
    · rcases List.mem_append.mp he with h1 | h1
      · exfalso
        have h2 := hb2.allIn e h1 hes
        rcases mem_bPaths_cases h2 with ⟨hu, _⟩ | h3 | h3
        · exact absurd hbu hu
        · obtain ⟨hne2, d2, hd2⟩ := fpPaths_mem h3
          obtain ⟨e1, he1, hp1, _, _, hpd2⟩ := hb1.fpMem d2 e.path hd2 hne2
          have he1e : e1 = e := hinj e1 he1 e h1 hp1
          rw [he1e, hpd1] at hpd2
          exact alistFind?_none hkey e.path (hpd2 ▸ hd2)
        · obtain ⟨d2, l2, hdl2, hel2⟩ := fhPaths_mem h3
          obtain ⟨q, hq⟩ := hb2.fhKey d2 l2 hdl2 e.path hel2 e h1 rfl
          rw [hpd1] at hq
          exact alistFind?_none hkey q hq
      · obtain rfl := List.mem_singleton.mp h1
        rfl
    · rcases List.mem_append.mp he with h1 | h1
      · exact hb2.fpUniq d1 p hm hp e h1 hes hpd1
      · obtain rfl := List.mem_singleton.mp h1
        exact absurd (hpd1.symm.trans hpd) hne1
  · intro d1 l hdl p hpl e he hep
    rcases List.mem_append.mp he with h1 | h1
    · obtain ⟨q, hq⟩ := hb2.fhKey d1 l hdl p hpl e h1 hep
      exact key_mem_exists (keys_updateA_mono (List.mem_map_of_mem Prod.fst hq))
    · obtain rfl := List.mem_singleton.mp h1
      exfalso
      obtain ⟨e1, he1, hp1, _⟩ := hb1.fhMem d1 l hdl p hpl
      exact hfresh e1 he1 (hp1.trans hep.symm)

/-- Filing the current file into an already-resolved prefix class keeps the
completeness invariant. -/
theorem binv2_resolvedAppend {b : Bucket} {d sp : List Nat}
    (hb1 : BucketInv done (intSize cur) b) (hb2 : BInv2 done (intSize cur) b)
    (hbu : b.unhashed = "")
    (hfresh : ∀ e ∈ done, e.path ≠ cur.path)
    (hfind : alistFind? b.firstPass d = some "")
    (hpd : pdig cur = d) :
    BInv2 (done ++ [cur]) (intSize cur)
      { b with fullHashes := appendFH b.fullHashes sp cur.path } := by
  refine ⟨fun hu => absurd hbu hu, ?_, ?_, ?_⟩
  · intro e he hes
    rcases List.mem_append.mp he with h1 | h1
    · have h2 := hb2.allIn e h1 hes
      rcases mem_bPaths_cases h2 with ⟨hu, _⟩ | h3 | h3
      · exact absurd hbu hu
      · exact mem_bPaths_fp h3
      · exact mem_bPaths_fh (mem_fhPaths_appendFH_old h3)
    · obtain rfl := List.mem_singleton.mp h1
      exact mem_bPaths_fh mem_fhPaths_appendFH_self
  · intro d1 p hdp hp e he hes hpd1
    rcases List.mem_append.mp he with h1 | h1
    · exact hb2.fpUniq d1 p hdp hp e h1 hes hpd1
    · obtain rfl := List.mem_singleton.mp h1
      exfalso
      have hd1 : d1 = d := hpd1.symm.trans hpd
      subst hd1
      have := mem_keys_unique hb1.fpK hdp (alistFind?_mem hfind)
      exact hp this
  · intro d1 l hdl p hpl e he hep
    rcases appendFH_cases hb1.fhK hdl with ⟨_, heq2⟩ | ⟨hm, _⟩
    · rw [heq2] at hpl
      rcases List.mem_append.mp hpl with h1 | h1
      · rcases hgd : alistFind? b.fullHashes sp with _ | l0
        · rw [hgd] at h1
          simp at h1
        · rw [hgd] at h1
          simp only [Option.getD_some] at h1
          rcases List.mem_append.mp he with h2 | h2
          · exact hb2.fhKey sp l0 (alistFind?_mem hgd) p h1 e h2 hep
          · obtain rfl := List.mem_singleton.mp h2
            exfalso
            obtain ⟨e1, he1, hp1, _⟩ := hb1.fhMem sp l0 (alistFind?_mem hgd) p h1
            exact hfresh e1 he1 (hp1.trans hep.symm)
      · obtain rfl : p = cur.path := List.mem_singleton.mp h1
        rcases List.mem_append.mp he with h2 | h2
        · exact absurd hep (hfresh e h2)
        · obtain rfl := List.mem_singleton.mp h2
          refine ⟨"", ?_⟩
          rw [hpd]
          exact alistFind?_mem hfind
    · rcases List.mem_append.mp he with h2 | h2
      · exact hb2.fhKey d1 l hm p hpl e h2 hep
      · obtain rfl := List.mem_singleton.mp h2
        exfalso
        obtain ⟨e1, he1, hp1, _⟩ := hb1.fhMem d1 l hm p hpl
        exact hfresh e1 he1 (hp1.trans hep.symm)

/-- Promoting a first-pass collision and filing both files keeps the
completeness invariant: the resolved slot stays a key, and both promoted
files sit in the full-hash map. -/
theorem binv2_promoteAppend {b : Bucket} {d sc sp : List Nat} {c : String} {eC : FileEntry}
    (hb1 : BucketInv done (intSize cur) b) (hb2 : BInv2 done (intSize cur) b)
    (hbu : b.unhashed = "")
    (hinj : ∀ e ∈ done, ∀ f ∈ done, e.path = f.path → e = f)
    (hfresh : ∀ e ∈ done, e.path ≠ cur.path)
    (hfind : alistFind? b.firstPass d = some c) (hc : ¬ c = "")
    (heC : eC ∈ done) (hpC : eC.path = c) (hpdC : pdig eC = d)
    (hpd : pdig cur = d) :
    BInv2 (done ++ [cur]) (intSize cur)
      ⟨b.unhashed, updateA b.firstPass d "",
        appendFH (appendFH b.fullHashes sc c) sp cur.path⟩ := by
  have hdmem : (d, "") ∈ updateA b.firstPass d "" := alistFind?_mem find?_updateA_self
  obtain ⟨A, B, hAB, hAB2⟩ := fpPaths_updateA_clear hb1.fpK hfind
  rw [if_neg hc] at hAB
  have hfhK2 : ((appendFH b.fullHashes sc c).map Prod.fst).Nodup := keys_updateA_nodup hb1.fhK
  refine ⟨?_, ?_, ?_, ?_⟩
  · intro hu
    exact absurd hbu hu
  · intro e he hes
    rcases List.mem_append.mp he with h1 | h1
    · have h2 := hb2.allIn e h1 hes
      rcases mem_bPaths_cases h2 with ⟨hu, _⟩ | h3 | h3
      · exact absurd hbu hu
      · by_cases hec : e.path = c
        · refine mem_bPaths_fh ?_
          rw [hec]
          exact mem_fhPaths_appendFH_old mem_fhPaths_appendFH_self
        · refine mem_bPaths_fp ?_
          rw [hAB2]
          rw [hAB] at h3
          rcases List.mem_append.mp h3 with h4 | h4
          · rcases List.mem_append.mp h4 with h5 | h5
            · exact List.mem_append_left _ h5
            · exact absurd (List.mem_singleton.mp h5) hec
          · exact List.mem_append_right _ h4
      · exact mem_bPaths_fh (mem_fhPaths_appendFH_old (mem_fhPaths_appendFH_old h3))
    · obtain rfl := List.mem_singleton.mp h1
      exact mem_bPaths_fh mem_fhPaths_appendFH_self
  · intro d1 p hdp hp e he hes hpd1
    rcases mem_updateA hb1.fpK hdp with ⟨rfl, rfl⟩ | ⟨hm, hne1⟩
    · exact absurd rfl hp
    · rcases List.mem_append.mp he with h1 | h1
      · exact hb2.fpUniq d1 p hm hp e h1 hes hpd1
      · obtain rfl := List.mem_singleton.mp h1
        exact absurd (hpd1.symm.trans hpd) hne1
  · intro d1 l hdl p hpl e he hep
    have oldCase : ∀ (dx : List Nat) (l1 : List String), (dx, l1) ∈ b.fullHashes →
        p ∈ l1 → ∃ q, (pdig e, q) ∈ updateA b.firstPass d "" := by
      intro dx l1 hm3 hpl1
      rcases List.mem_append.mp he with hED | hED
      · obtain ⟨q, hq⟩ := hb2.fhKey dx l1 hm3 p hpl1 e hED hep
        exact key_mem_exists (keys_updateA_mono (List.mem_map_of_mem Prod.fst hq))
      · obtain rfl := List.mem_singleton.mp hED
        exfalso
        obtain ⟨e1, he1, hp1, _⟩ := hb1.fhMem dx l1 hm3 p hpl1
        exact hfresh e1 he1 (hp1.trans hep.symm)
    have cCase : p = c → ∃ q, (pdig e, q) ∈ updateA b.firstPass d "" := by
      intro hpc
      rcases List.mem_append.mp he with hED | hED
      · have he1e : e = eC := hinj e hED eC heC (by rw [hep, hpc, hpC])
        refine ⟨"", ?_⟩
        rw [he1e, hpdC]
        exact hdmem
      · obtain rfl := List.mem_singleton.mp hED
        exact absurd (hpC.trans (hep.trans hpc).symm) (hfresh eC heC)
    have curCase : p = cur.path → ∃ q, (pdig e, q) ∈ updateA b.firstPass d "" := by
      intro hpc
      rcases List.mem_append.mp he with hED | hED
      · exact absurd (hep.trans hpc) (hfresh e hED)
      · obtain rfl := List.mem_singleton.mp hED
        refine ⟨"", ?_⟩
        rw [hpd]
        exact hdmem
    rcases appendFH_cases hfhK2 hdl with ⟨_, heq2⟩ | ⟨hm1, _⟩
    · rw [heq2] at hpl
      rcases List.mem_append.mp hpl with h1 | h1
      · rcases hgd : alistFind? (appendFH b.fullHashes sc c) sp with _ | l0
        · rw [hgd] at h1
          simp at h1
        · rw [hgd] at h1
          simp only [Option.getD_some] at h1
          rcases appendFH_cases hb1.fhK (alistFind?_mem hgd) with ⟨_, heq4⟩ | ⟨hm2, _⟩
          · rw [heq4] at h1
            rcases List.mem_append.mp h1 with h5 | h5
            · rcases hgd2 : alistFind? b.fullHashes sc with _ | l2
              · rw [hgd2] at h5
                simp at h5
              · rw [hgd2] at h5
                simp only [Option.getD_some] at h5
                exact oldCase sc l2 (alistFind?_mem hgd2) h5
            · exact cCase (List.mem_singleton.mp h5)
          · exact oldCase _ _ hm2 h1
      · exact curCase (List.mem_singleton.mp h1)
    · rcases appendFH_cases hb1.fhK hm1 with ⟨_, heq4⟩ | ⟨hm2, _⟩
      · rw [heq4] at hpl
        rcases List.mem_append.mp hpl with h5 | h5
        · rcases hgd2 : alistFind? b.fullHashes sc with _ | l2
          · rw [hgd2] at h5
            simp at h5
          · rw [hgd2] at h5
            simp only [Option.getD_some] at h5
            exact oldCase sc l2 (alistFind?_mem hgd2) h5
        · exact cCase (List.mem_singleton.mp h5)
      · exact oldCase _ _ hm2 hpl

end Inv2Transitions

section Inv2Preservation

variable {fs done : List FileEntry} {cur : FileEntry} {st : CoreState}

theorem inv2_stepB {b : Bucket} {lg : List (String × Int)}
    (hnd : (fs.map FileEntry.path).Nodup)
    (hne : ∀ e ∈ fs, ¬ e.path = "")
    (hrd : ∀ e ∈ fs, e.readable = true)
    (hcur : cur ∈ fs)
    (hsubd : ∀ e ∈ done, e ∈ fs)
    (hfresh : ∀ e ∈ done, e.path ≠ cur.path)
    (inv : Inv1 done st)
    (inv2 : Inv2 done st)
    (hb1 : BucketInv done (intSize cur) b)
    (hb2 : BInv2 done (intSize cur) b)
    (hbu : b.unhashed = "") :
    Inv2 (done ++ [cur]) (stepB fs st cur.path (intSize cur) b lg) := by
  have hinj : ∀ e ∈ done, ∀ f ∈ done, e.path = f.path → e = f := by
    intro e he f hf hp
    exact path_inj hnd (hsubd e he) (hsubd f hf) hp
  have hfindc : fs.find? (fun f => f.path == cur.path) = some cur := find?_path_self hnd hcur
  have hcrd : cur.readable = true := hrd cur hcur
  have hcne : ¬ cur.path = "" := hne cur hcur
  have hg2 : goHash fs cur.path (min 4096 (intSize cur)) = some (pdig cur) := by
    rw [goHash_pref hfindc, if_pos hcrd]
  have hg3 : goHash fs cur.path (-1) = some cur.content := by
    rw [goHash_fullc hfindc, if_pos hcrd]
  rcases hfp : alistFind? b.firstPass (pdig cur) with _ | c
  · rw [stepB_eq_fresh hg2 hfp]
    exact inv2_putB inv inv2 hfresh (binv2_fpInsert hb1 hb2 hbu hinj hfresh hfp hcne rfl)
  · by_cases hc : c = ""
    · subst hc
      rw [stepB_eq_resolved hg2 hfp, stepC_eq_ok hg3]
      exact inv2_putB inv inv2 hfresh (binv2_resolvedAppend hb1 hb2 hbu hfresh hfp rfl)
    · obtain ⟨eC, heC, hpC, hszC, hrdC, hpdC⟩ := hb1.fpMem (pdig cur) c (alistFind?_mem hfp) hc
      have hfindC2 : fs.find? (fun f => f.path == c) = some eC := by
        rw [← hpC]
        exact find?_path_self hnd (hsubd eC heC)
      have hgc : goHash fs c (-1) = some eC.content := by
        rw [goHash_fullc hfindC2, if_pos hrdC]
      rw [stepB_eq_promote hg2 hfp hc hgc, stepC_eq_ok hg3]
      exact inv2_putB inv inv2 hfresh
        (binv2_promoteAppend hb1 hb2 hbu hinj hfresh hfp hc heC hpC hpdC rfl)

theorem inv2_step {rest : List FileEntry}
    (hnd : (fs.map FileEntry.path).Nodup)
    (hne : ∀ e ∈ fs, ¬ e.path = "")
    (hrd : ∀ e ∈ fs, e.readable = true)
    (hsplit : fs = done ++ cur :: rest)
    (inv : Inv1 done st)
    (inv2 : Inv2 done st) :
    Inv2 (done ++ [cur]) (step fs st cur) := by
  have hcur : cur ∈ fs := by
    rw [hsplit]
    exact List.mem_append_right _ (List.mem_cons_self _ _)
  have hsubd : ∀ e ∈ done, e ∈ fs := by
    intro e he
    rw [hsplit]
    exact List.mem_append_left _ he
  have hfresh : ∀ e ∈ done, e.path ≠ cur.path := by
    intro e he
    have h1 : (done.map FileEntry.path ++ cur.path :: rest.map FileEntry.path).Nodup := by
      have h0 := hnd
      rw [hsplit] at h0
      simpa using h0
    have h2 := (List.nodup_append.mp h1).2.2
    intro hpe
    exact h2 (hpe ▸ List.mem_map_of_mem FileEntry.path he) (List.mem_cons_self _ _)
  rcases hfind : alistFind? st.files (intSize cur) with _ | hs
  · rw [step_eq_create hfind]
    have hnone : ∀ e ∈ done, intSize e ≠ intSize cur := by
      intro e he heq
      obtain ⟨b0, hb0⟩ := inv.covers e he
      exact alistFind?_none hfind b0 (heq ▸ hb0)
    exact inv2_putB inv inv2 hfresh (binv2_create hnone (hne cur hcur))
  · have hbs1 := inv.buckets _ hs (alistFind?_mem hfind)
    have hbs2 := inv2 _ hs (alistFind?_mem hfind)
    by_cases hbu : hs.unhashed = ""
    · rw [step_eq_nopend hfind hbu]
      exact inv2_stepB hnd hne hrd hcur hsubd hfresh inv inv2 hbs1 hbs2 hbu
    · obtain ⟨eU, heU, hpU, hsU⟩ := hbs1.uMem hbu
      have hrdU : eU.readable = true := hrd eU (hsubd eU heU)
      have hfindU : fs.find? (fun f => f.path == eU.path) = some eU :=
        find?_path_self hnd (hsubd eU heU)
      have hg1 : goHash fs hs.unhashed (min 4096 (intSize cur)) = some (pdig eU) := by
        rw [← hpU, ← hsU, goHash_pref hfindU, if_pos hrdU]
      rw [step_eq_pend_ok hfind hbu hg1]
      exact inv2_stepB hnd hne hrd hcur hsubd hfresh inv inv2
        (bucketInv_phase1 hbs1 hbu heU hpU hsU hrdU rfl)
        (binv2_phase1 hbs1 hbs2 hbu) rfl

theorem inv2_foldl (hnd : (fs.map FileEntry.path).Nodup)
    (hne : ∀ e ∈ fs, ¬ e.path = "")
    (hrd : ∀ e ∈ fs, e.readable = true) :
    ∀ (rest done : List FileEntry) (st : CoreState),
      fs = done ++ rest → Inv1 done st → Inv2 done st →
      Inv2 fs (rest.foldl (step fs) st) := by
  intro rest
  induction rest with
  | nil =>
    intro done st hsplit _ inv2
    rw [List.foldl_nil, hsplit, List.append_nil]
    exact inv2
  | cons cur rest2 ih =>
    intro done st hsplit inv inv2
    rw [List.foldl_cons]
    refine ih (done ++ [cur]) (step fs st cur) ?_ ?_ ?_
    · rw [hsplit]
      simp
    · exact inv1_step hnd hsplit inv
    · exact inv2_step hnd hne hrd hsplit inv inv2

/-- The completeness invariant holds at the end of an all-readable scan. -/
theorem inv2_runCore {fs : List FileEntry} (hnd : (fs.map FileEntry.path).Nodup)
    (hne : ∀ e ∈ fs, ¬ e.path = "")
    (hrd : ∀ e ∈ fs, e.readable = true) :
    Inv2 fs (runCore fs) := by
  have hinit1 : Inv1 [] ⟨[], []⟩ := by
    refine ⟨List.nodup_nil, ?_, ?_, ?_⟩
    · intro s b h
      simp at h
    · intro e he
      simp at he
    · intro pe hpe
      simp at hpe
  have hinit2 : Inv2 [] ⟨[], []⟩ := by
    intro s b h
    simp at h
  exact inv2_foldl hnd hne hrd fs [] ⟨[], []⟩ (by simp) hinit1 hinit2

end Inv2Preservation

section Extraction

/-- Output groups are exactly the full-hash lists of length at least two. -/
theorem mem_collectDupes {files : List (Int × Bucket)} {g : Info} :
    g ∈ collectDupes files ↔
      ∃ sb ∈ files, ∃ dl ∈ sb.2.fullHashes, 1 < dl.2.length ∧ g = ⟨sb.1, dl.2⟩ := by
  unfold collectDupes
  rw [List.mem_flatMap]
  constructor
  · rintro ⟨sb, hsb, hg⟩
    rw [List.mem_filterMap] at hg
    obtain ⟨dl, hdl, hif⟩ := hg
    by_cases hlen : 1 < dl.2.length
    · rw [if_pos hlen] at hif
      exact ⟨sb, hsb, dl, hdl, hlen, (Option.some.inj hif).symm⟩
    · rw [if_neg hlen] at hif
      exact Option.noConfusion hif
  · rintro ⟨sb, hsb, dl, hdl, hlen, rfl⟩
    refine ⟨sb, hsb, ?_⟩
    rw [List.mem_filterMap]
    exact ⟨dl, hdl, by rw [if_pos hlen]⟩

theorem mem_dupesOn {fs : List FileEntry} {g : Info} :
    g ∈ dupesOn fs ↔ g ∈ collectDupes (runCore fs).files :=
  (List.perm_insertionSort infoGe _).mem_iff

theorem one_lt_length_of_mem_ne {α : Type} {l : List α} {a b : α}
    (ha : a ∈ l) (hb : b ∈ l) (hne : a ≠ b) : 1 < l.length := by
  cases l with
  | nil => simp at ha
  | cons x t =>
    cases t with
    | nil =>
      simp only [List.mem_singleton] at ha hb
      exact absurd (ha.trans hb.symm) hne
    | cons y t2 =>
      simp only [List.length_cons]
      omega

/-- Soundness of every output group, from the structural invariant: at least
two members, pairwise-distinct paths, and all members are readable on-disk
files sharing one full digest whose byte length is the group size. -/
theorem dupesOn_group_facts {fs : List FileEntry}
    (hnd : (fs.map FileEntry.path).Nodup) {g : Info} (hg : g ∈ dupesOn fs) :
    1 < g.Names.length ∧ g.Names.Nodup ∧
      ∃ d : List Nat, g.Size = (d.length : Int) ∧
        ∀ p ∈ g.Names, ∃ e ∈ fs, e.path = p ∧ e.readable = true ∧ e.content = d := by
  obtain ⟨sb, hsb, dl, hdl, hlen, rfl⟩ := mem_collectDupes.mp (mem_dupesOn.mp hg)
  obtain ⟨s, b⟩ := sb
  obtain ⟨d, l⟩ := dl
  have inv := inv1_runCore hnd
  have bi := inv.buckets s b hsb
  refine ⟨hlen, ?_, d, ?_, ?_⟩
  · have hflat := bi.fhND
    rcases List.nodup_flatten.mp hflat with ⟨hall, _⟩
    exact hall l (List.mem_map_of_mem Prod.snd hdl)
  · have : ∃ p, p ∈ l := by
      cases l with
      | nil => simp at hlen
      | cons x t => exact ⟨x, List.mem_cons_self _ _⟩
    obtain ⟨p, hp⟩ := this
    obtain ⟨e, _, _, hsz, _, hcd⟩ := bi.fhMem d l hdl p hp
    rw [← hsz, ← hcd]
    rfl
  · intro p hp
    obtain ⟨e, he, h1, _, h3, h4⟩ := bi.fhMem d l hdl p hp
    exact ⟨e, he, h1, h3, h4⟩

/-- A path whose size no other enumerated file shares is never hashed: its
bucket stays pending and the hash function is never invoked on it. -/
theorem unique_size_unhashed {fs : List FileEntry}
    (hnd : (fs.map FileEntry.path).Nodup) {e : FileEntry} (he : e ∈ fs)
    (huniq : ∀ f ∈ fs, f.path ≠ e.path → intSize f ≠ intSize e) :
    e.path ∉ (runCore fs).hashLog.map Prod.fst := by
  intro hmem
  obtain ⟨⟨p, bs⟩, hpe, hp⟩ := List.mem_map.mp hmem
  obtain ⟨e1, he1, hp1, f, hf, hfp, hfs⟩ := (inv1_runCore hnd).logOK (p, bs) hpe
  have he1e : e1 = e := path_inj hnd he1 he (by rw [hp1]; exact hp)
  rw [he1e] at hfp hfs
  exact huniq f hf hfp hfs

end Extraction

section Completeness

theorem filter_flatMap {α β : Type} (l : List α) (f : α → List β) (p : β → Bool) :
    (l.flatMap f).filter p = l.flatMap (fun a => (f a).filter p) := by
  induction l with
  | nil => simp
  | cons x t ih => simp [List.flatMap_cons, List.filter_append, ih]

theorem mem_once_of_keysND {κ β : Type} [DecidableEq κ] {l : List (κ × β)}
    (hnd : (l.map Prod.fst).Nodup) {k : κ} {v : β} (h : (k, v) ∈ l) :
    ∃ L1 L2, l = L1 ++ (k, v) :: L2 ∧ (∀ kv ∈ L1, (kv : κ × β).1 ≠ k) ∧
      (∀ kv ∈ L2, (kv : κ × β).1 ≠ k) := by
  induction l with
  | nil => simp at h
  | cons kv t ih =>
    obtain ⟨k1, v1⟩ := kv
    simp only [List.map_cons, List.nodup_cons] at hnd
    rcases List.mem_cons.mp h with h1 | h1
    · obtain ⟨h1a, h1b⟩ := Prod.mk.injEq .. ▸ h1
      subst h1a
      subst h1b
      refine ⟨[], t, by rfl, by simp, ?_⟩
      intro kv2 hkv2 hk
      apply hnd.1
      rw [← hk]
      exact List.mem_map_of_mem Prod.fst hkv2
    · obtain ⟨L1, L2, hsplit, hL1, hL2⟩ := ih hnd.2 h1
      refine ⟨(k1, v1) :: L1, L2, by rw [hsplit]; rfl, ?_, hL2⟩
      intro kv2 hkv2
      rcases List.mem_cons.mp hkv2 with h2 | h2
      · subst h2
        intro hk
        apply hnd.1
        have hk1 : k1 = k := hk
        rw [hk1]
        have : (k, v) ∈ t := by
          rw [hsplit]
          exact List.mem_append_right _ (List.mem_cons_self _ _)
        exact List.mem_map_of_mem Prod.fst this
      · exact hL1 kv2 h2

theorem flatMap_single {α β : Type} {L1 L2 : List α} {f : α → List β} {a : α} {y : β}
    (hfa : f a = [y])
    (h1 : ∀ x ∈ L1, f x = []) (h2 : ∀ x ∈ L2, f x = []) :
    (L1 ++ a :: L2).flatMap f = [y] := by
  have e1 : L1.flatMap f = [] := by
    rw [List.flatMap_eq_nil_iff]
    exact h1
  have e2 : L2.flatMap f = [] := by
    rw [List.flatMap_eq_nil_iff]
    exact h2
  rw [List.flatMap_append, e1, List.flatMap_cons, e2, hfa]
  simp

/-- Within one bucket's full-hash map, filtering the emitted groups for a
path held by one list selects exactly the group of that list. -/
theorem inner_filter_singleton {s : Int} {fh : List (List Nat × List String)} {dh : List Nat}
    {l : List String} {p : String}
    (hND : (fhPaths fh).Nodup)
    (hmem : (dh, l) ∈ fh) (hpl : p ∈ l) (hlen : 1 < l.length) :
    (fh.filterMap (fun dl => if 1 < dl.2.length then some (⟨s, dl.2⟩ : Info) else none)).filter
      (fun g => decide (p ∈ g.Names)) = [⟨s, l⟩] := by
  induction fh with
  | nil => simp at hmem
  | cons dl0 t ih =>
    obtain ⟨d1, l1⟩ := dl0
    have hndt : (fhPaths t).Nodup := by
      simp only [fhPaths, List.map_cons, List.flatten_cons] at hND
      exact (List.nodup_append.mp hND).2.1
    have hdisj : ∀ q ∈ l1, q ∉ fhPaths t := by
      simp only [fhPaths, List.map_cons, List.flatten_cons] at hND
      intro q hq
      exact (List.nodup_append.mp hND).2.2 hq
    rcases List.mem_cons.mp hmem with h1 | h1
    · obtain ⟨rfl, rfl⟩ := Prod.mk.injEq .. ▸ h1
      rw [List.filterMap_cons]
      simp only [if_pos hlen]
      rw [List.filter_cons]
      have hpmem : (decide (p ∈ (⟨s, l⟩ : Info).Names)) = true := by
        simp only [decide_eq_true_eq]
        exact hpl
      rw [if_pos hpmem]
      have hrest : (t.filterMap (fun dl =>
          if 1 < dl.2.length then some (⟨s, dl.2⟩ : Info) else none)).filter
          (fun g => decide (p ∈ g.Names)) = [] := by
        rw [List.filter_eq_nil_iff]
        intro g hg
        rw [List.mem_filterMap] at hg
        obtain ⟨⟨d2, l2⟩, hm2, hif⟩ := hg
        by_cases hl2 : 1 < l2.length
        · rw [if_pos hl2] at hif
          obtain rfl : (⟨s, l2⟩ : Info) = g := Option.some.inj hif
          simp only [decide_eq_true_eq]
          intro hmem2
          exact hdisj p hpl (mem_fhPaths hm2 hmem2)
        · rw [if_neg hl2] at hif
          exact Option.noConfusion hif
      rw [hrest]
    · have hpnot : p ∉ l1 := by
        intro hp1
        exact hdisj p hp1 (mem_fhPaths h1 hpl)
      rw [List.filterMap_cons]
      by_cases hl1 : 1 < l1.length
      · rw [if_pos hl1, List.filter_cons]
        rw [if_neg (by simp only [decide_eq_true_eq]; exact hpnot)]
        exact ih hndt h1
      · rw [if_neg hl1]
        exact ih hndt h1

/-- Completeness of the scan when every file is readable: a file whose
content equals another file's content lands in exactly one output group. -/
theorem dupes_complete_core {fs : List FileEntry}
    (hnd : (fs.map FileEntry.path).Nodup)
    (hne : ∀ e ∈ fs, ¬ e.path = "")
    (hrd : ∀ e ∈ fs, e.readable = true)
    {e f : FileEntry} (he : e ∈ fs) (hf : f ∈ fs) (hef : e ≠ f)
    (hcc : e.content = f.content) :
    ((dupesOn fs).filter (fun g => decide (e.path ∈ g.Names))).length = 1 := by
  have inv := inv1_runCore hnd
  have inv2 := inv2_runCore hnd hne hrd
  have hpe : e.path ≠ f.path := by
    intro h
    exact hef (path_inj hnd he hf h)
  have hsz : intSize f = intSize e := by
    unfold intSize
    rw [hcc]
  have hpd : pdig f = pdig e := by
    unfold pdig
    rw [hcc]
  -- locate the shared bucket
  obtain ⟨b, hbmem⟩ := inv.covers e he
  have bi1 := inv.buckets _ b hbmem
  have bi2 := inv2 _ b hbmem
  -- locate e inside the bucket: it must be in the full-hash map
  have hloc : ∃ l, (e.content, l) ∈ b.fullHashes ∧ e.path ∈ l := by
    have hIn := bi2.allIn e he rfl
    rcases mem_bPaths_cases hIn with ⟨hu, hup⟩ | h3 | h3
    · exfalso
      have h4 := bi2.uOnly hu f hf hsz
      exact hpe (hup.trans h4.symm)
    · exfalso
      obtain ⟨hne2, d2, hd2⟩ := fpPaths_mem h3
      obtain ⟨e1, he1d, hp1, _, _, hpd2⟩ := bi1.fpMem d2 e.path hd2 hne2
      have he1e : e1 = e := path_inj hnd he1d he hp1
      rw [he1e] at hpd2
      have h4 := bi2.fpUniq d2 e.path hd2 hne2 f hf hsz (hpd.trans hpd2)
      exact hpe h4.symm
    · obtain ⟨dx, lx, hdlx, helx⟩ := fhPaths_mem h3
      obtain ⟨e1, he1d, hp1, _, _, hcd⟩ := bi1.fhMem dx lx hdlx e.path helx
      have he1e : e1 = e := path_inj hnd he1d he hp1
      rw [he1e] at hcd
      exact ⟨lx, hcd ▸ hdlx, helx⟩
  obtain ⟨l, hdl, hel⟩ := hloc
  -- f is in the same list
  have hflist : f.path ∈ l := by
    have hIn := bi2.allIn f hf hsz
    rcases mem_bPaths_cases hIn with ⟨hu, _⟩ | h3 | h3
    · exfalso
      obtain ⟨hfp0, hfh0⟩ := bi1.uEmpty hu
      rw [hfh0] at hdl
      simp at hdl
    · exfalso
      obtain ⟨hne2, d2, hd2⟩ := fpPaths_mem h3
      obtain ⟨f1, hf1d, hp1, _, _, hpd2⟩ := bi1.fpMem d2 f.path hd2 hne2
      have hf1f : f1 = f := path_inj hnd hf1d hf hp1
      rw [hf1f] at hpd2
      have h4 := bi2.fpUniq d2 f.path hd2 hne2 e he rfl (hpd.symm.trans hpd2)
      exact hpe h4
    · obtain ⟨dx, lx, hdlx, hflx⟩ := fhPaths_mem h3
      obtain ⟨f1, hf1d, hp1, _, _, hcd⟩ := bi1.fhMem dx lx hdlx f.path hflx
      have hf1f : f1 = f := path_inj hnd hf1d hf hp1
      rw [hf1f] at hcd
      have hdx : dx = e.content := by rw [← hcd, hcc]
      have : lx = l := mem_keys_unique bi1.fhK (hdx ▸ hdlx) hdl
      rw [← this]
      exact hflx
  have hlen : 1 < l.length := one_lt_length_of_mem_ne hel hflist hpe
  -- the filter over the whole output
  have hpermf := (List.perm_insertionSort infoGe
    (collectDupes (runCore fs).files)).filter (fun g => decide (e.path ∈ g.Names))
  have hlength : ((dupesOn fs).filter (fun g => decide (e.path ∈ g.Names))).length =
      ((collectDupes (runCore fs).files).filter (fun g => decide (e.path ∈ g.Names))).length :=
    hpermf.length_eq
  rw [hlength]
  -- split the bucket list at (intSize e, b)
  obtain ⟨L1, L2, hsplit, hL1, hL2⟩ := mem_once_of_keysND inv.keysND hbmem
  have hinner : ∀ sb : Int × Bucket, sb ∈ (runCore fs).files → sb.1 ≠ intSize e →
      ((sb.2.fullHashes.filterMap (fun dl =>
        if 1 < dl.2.length then some (⟨sb.1, dl.2⟩ : Info) else none)).filter
        (fun g => decide (e.path ∈ g.Names))) = [] := by
    intro sb hsb hne1
    rw [List.filter_eq_nil_iff]
    intro g hg
    rw [List.mem_filterMap] at hg
    obtain ⟨⟨d2, l2⟩, hm2, hif⟩ := hg
    by_cases hl2 : 1 < l2.length
    · rw [if_pos hl2] at hif
      obtain rfl : (⟨sb.1, l2⟩ : Info) = g := Option.some.inj hif
      simp only [decide_eq_true_eq]
      intro hmem2
      obtain ⟨e1, he1d, hp1, hsz1, _⟩ := (inv.buckets sb.1 sb.2 hsb).fhMem d2 l2 hm2 e.path hmem2
      have he1e : e1 = e := path_inj hnd he1d he hp1
      rw [he1e] at hsz1
      exact hne1 hsz1.symm
    · rw [if_neg hl2] at hif
      exact Option.noConfusion hif
  have hmain :
      (b.fullHashes.filterMap (fun dl =>
        if 1 < dl.2.length then some (⟨intSize e, dl.2⟩ : Info) else none)).filter
        (fun g => decide (e.path ∈ g.Names)) = [⟨intSize e, l⟩] :=
    inner_filter_singleton bi1.fhND hdl hel hlen
  have hcollect : (collectDupes (runCore fs).files).filter
      (fun g => decide (e.path ∈ g.Names)) = [(⟨intSize e, l⟩ : Info)] := by
    unfold collectDupes
    rw [filter_flatMap, hsplit]
    refine flatMap_single ?_ ?_ ?_
    · exact hmain
    · intro x hx
      exact hinner x (by rw [hsplit]; exact List.mem_append_left _ hx) (hL1 x hx)
    · intro x hx
      exact hinner x
        (by rw [hsplit]; exact List.mem_append_right _ (List.mem_cons_of_mem _ hx)) (hL2 x hx)
  rw [hcollect]
  rfl

end Completeness

section WalkLemmas

/-- Well-formedness the walk maintains for its pending map: pairwise-distinct
nonempty paths. -/
def pendOK (pend : List FileEntry) : Prop :=
  (pend.map FileEntry.path).Nodup ∧ ∀ e ∈ pend, ¬ e.path = ""

theorem pendUpd_keys_sub {pend : List FileEntry} {path : String} {c : List Nat} {r : Bool}
    {q : String} (h : q ∈ (pendUpd pend path c r).map FileEntry.path) :
    q ∈ pend.map FileEntry.path ∨ q = path := by
  induction pend with
  | nil =>
    simp only [pendUpd, List.map_cons, List.map_nil, List.mem_singleton] at h
    exact Or.inr h
  | cons e t ih =>
    simp only [pendUpd] at h
    split at h
    · simp only [List.map_cons, List.mem_cons] at h
      rcases h with h | h
      · exact Or.inr h
      · exact Or.inl (List.mem_cons_of_mem _ h)
    · simp only [List.map_cons, List.mem_cons] at h
      rcases h with h | h
      · exact Or.inl (by simp [h])
      · rcases ih h with h1 | h1
        · exact Or.inl (List.mem_cons_of_mem _ h1)
        · exact Or.inr h1

theorem pendUpd_ok {pend : List FileEntry} {path : String} {c : List Nat} {r : Bool}
    (hok : pendOK pend) (hp : ¬ path = "") : pendOK (pendUpd pend path c r) := by
  obtain ⟨hnd, hne⟩ := hok
  constructor
  · clear hne
    induction pend with
    | nil => simp [pendUpd]
    | cons e t ih =>
      simp only [List.map_cons, List.nodup_cons] at hnd
      simp only [pendUpd]
      split
      · next heq =>
        simp only [List.map_cons, List.nodup_cons]
        exact ⟨heq ▸ hnd.1, hnd.2⟩
      · next hne2 =>
        simp only [List.map_cons, List.nodup_cons]
        refine ⟨fun hmem => ?_, ih hnd.2⟩
        rcases pendUpd_keys_sub hmem with h1 | h1
        · exact hnd.1 h1
        · exact hne2 h1
  · clear hnd
    induction pend with
    | nil =>
      intro e he
      simp only [pendUpd, List.mem_singleton] at he
      rw [he]
      exact hp
    | cons e0 t ih =>
      intro e he
      simp only [pendUpd] at he
      split at he
      · rcases List.mem_cons.mp he with h1 | h1
        · rw [h1]
          exact hp
        · exact hne e (List.mem_cons_of_mem _ h1)
      · rcases List.mem_cons.mp he with h1 | h1
        · exact hne e (h1 ▸ List.mem_cons_self _ _)
        · exact ih (fun x hx => hne x (List.mem_cons_of_mem _ hx)) e h1

theorem join_ne_empty (dp name : String) : ¬ (dp ++ "/" ++ name) = "" := by
  intro h
  have h0 : (dp ++ "/" ++ name).length = 0 := by
    rw [h]
    rfl
  have h1 : ("/" : String).length = 1 := rfl
  rw [String.length_append, String.length_append, h1] at h0
  omega

mutual
theorem walkNode_pendOK : ∀ (n : Node) (path : String) (pend pend2 : List FileEntry),
    pendOK pend → ¬ path = "" → walkNode path n pend = .ok pend2 → pendOK pend2
  | .file c r, path, pend, pend2 => by
    intro hok hp h
    simp only [walkNode] at h
    exact (Except.ok.inj h) ▸ pendUpd_ok hok hp
  | .statErr, path, pend, pend2 => by
    intro _ _ h
    simp only [walkNode] at h
    exact Except.noConfusion h
  | .dir rd es, path, pend, pend2 => by
    intro hok hp h
    simp only [walkNode] at h
    by_cases hrd : rd = true
    · rw [if_pos hrd] at h
      exact walkEntries_pendOK es path pend pend2 hok h
    · rw [if_neg hrd] at h
      exact (Except.ok.inj h) ▸ hok
theorem walkEntries_pendOK : ∀ (es : Entries) (dp : String) (pend pend2 : List FileEntry),
    pendOK pend → walkEntries dp es pend = .ok pend2 → pendOK pend2
  | .nil, dp, pend, pend2 => by
    intro hok h
    simp only [walkEntries] at h
    exact (Except.ok.inj h) ▸ hok
  | .cons name n rest, dp, pend, pend2 => by
    intro hok h
    simp only [walkEntries] at h
    rcases hw : walkNode (dp ++ "/" ++ name) n pend with e | pend1
    · rw [hw] at h
      exact Except.noConfusion h
    · rw [hw] at h
      exact walkEntries_pendOK rest dp pend1 pend2
        (walkNode_pendOK n (dp ++ "/" ++ name) pend pend1 hok (join_ne_empty dp name) hw) h
end

theorem walkAll_pendOK {fss : List (String × Node)} :
    ∀ (roots : List String) (pend pend2 : List FileEntry),
      (∀ r ∈ roots, ¬ r = "") → pendOK pend →
      walkAll fss roots pend = .ok pend2 → pendOK pend2
  | [], pend, pend2, _, hok, h => by
      simp only [walkAll] at h
      exact (Except.ok.inj h) ▸ hok
  | r :: rs, pend, pend2, hr, hok, h => by
      simp only [walkAll] at h
      rcases hw : walkRoot fss r pend with e | pend1
      · rw [hw] at h
        exact Except.noConfusion h
      · rw [hw] at h
        refine walkAll_pendOK rs pend1 pend2 (fun x hx => hr x (List.mem_cons_of_mem _ hx)) ?_ h
        unfold walkRoot at hw
        rcases hf : alistFind? fss r with _ | n
        · rw [hf] at hw
          exact Except.noConfusion hw
        · rw [hf] at hw
          exact walkNode_pendOK n r pend pend1 hok (hr r (List.mem_cons_self _ _)) hw

/-- Concatenation of directory entry lists. -/
def eappend : Entries → Entries → Entries
  | .nil, es2 => es2
  | .cons name n rest, es2 => .cons name n (eappend rest es2)

theorem walkEntries_eappend : ∀ (es1 : Entries) (dp : String) (es2 : Entries)
    (pend : List FileEntry),
    walkEntries dp (eappend es1 es2) pend =
      match walkEntries dp es1 pend with
      | .error e => .error e
      | .ok pend2 => walkEntries dp es2 pend2
  | .nil, dp, es2, pend => by
    simp [eappend, walkEntries]
  | .cons name n rest, dp, es2, pend => by
    simp only [eappend, walkEntries]
    rcases hw : walkNode (dp ++ "/" ++ name) n pend with e | pend1
    · rfl
    · exact walkEntries_eappend rest dp es2 pend1

end WalkLemmas

section ClaimFixtures

/-- Decidable equality of run outcomes, for concrete evaluations. -/
def exceptDecEq {ε α : Type} [DecidableEq ε] [DecidableEq α] : DecidableEq (Except ε α)
  | .error e1, .error e2 =>
    if h : e1 = e2 then isTrue (by rw [h]) else isFalse (fun hh => h (Except.error.inj hh))
  | .error _, .ok _ => isFalse (fun hh => Except.noConfusion hh)
  | .ok _, .error _ => isFalse (fun hh => Except.noConfusion hh)
  | .ok a1, .ok a2 =>
    if h : a1 = a2 then isTrue (by rw [h]) else isFalse (fun hh => h (Except.ok.inj hh))

instance {ε α : Type} [DecidableEq ε] [DecidableEq α] : DecidableEq (Except ε α) :=
  exceptDecEq

/-- The order the spec claims for the output: descending by reclaimable size
Size * (member_count - 1). -/
def reclaimSorted (out : List Info) : Prop :=
  out.Pairwise (fun g1 g2 =>
    g2.Size * ((g2.Names.length : Int) - 1) ≤ g1.Size * ((g1.Names.length : Int) - 1))

/-- Readable-subset completeness as claimed: every readable file with a
distinct readable identical-content partner appears in some output group. -/
def readableDupesFound (fs : List FileEntry) (out : List Info) : Prop :=
  ∀ e ∈ fs, e.readable = true →
    (∃ f ∈ fs, f ≠ e ∧ f.readable = true ∧ f.content = e.content) →
    ∃ g ∈ out, e.path ∈ g.Names

/-- Two duplicates of size 10 next to three duplicates of size 6: total size
orders the pair (20) before the triple (18), reclaimable size would order the
triple (12) before the pair (10). -/
def cexC1 : List FileEntry :=
  [⟨"a", List.replicate 10 1, true⟩, ⟨"b", List.replicate 10 1, true⟩,
   ⟨"c", List.replicate 6 2, true⟩, ⟨"d", List.replicate 6 2, true⟩,
   ⟨"e", List.replicate 6 2, true⟩]

/-- One readable one-byte file, to be hashed with a larger limit. -/
def cexC3 : List FileEntry := [⟨"a", [7], true⟩]

/-- An unreadable file processed first, followed by two readable duplicates
of the same size. -/
def cexC4 : List FileEntry :=
  [⟨"A", [1, 2, 3, 4, 5], false⟩, ⟨"B", [1, 2, 3, 4, 5], true⟩,
   ⟨"C", [1, 2, 3, 4, 5], true⟩]

/-- A root directory whose first entry fails lstat, with a healthy sibling
after it. -/
def cexC7 : List (String × Node) :=
  [("r", Node.dir true (Entries.cons "x" Node.statErr
      (Entries.cons "b" (Node.file [1] true) Entries.nil)))]

/-- A healthy root with two identical files. -/
def wTree : List (String × Node) :=
  [("r", Node.dir true (Entries.cons "b" (Node.file [1, 2] true)
      (Entries.cons "c" (Node.file [1, 2] true) Entries.nil)))]

/-- Two identical one-byte readable files. -/
def wfs5 : List FileEntry := [⟨"x", [9], true⟩, ⟨"y", [9], true⟩]

/-- Two readable same-size duplicates next to an unreadable file of another
size. -/
def wfs4 : List FileEntry :=
  [⟨"p", [5], true⟩, ⟨"q", [5], true⟩, ⟨"r0", [6, 6], false⟩]

/-- A file whose size no other file shares, next to two same-size files. -/
def wfs8 : List FileEntry :=
  [⟨"u", [1], true⟩, ⟨"v", [2, 2], true⟩, ⟨"w", [3, 3], true⟩]

instance (out : List Info) : Decidable (reclaimSorted out) := by
  unfold reclaimSorted
  infer_instance

instance (fs : List FileEntry) (out : List Info) : Decidable (readableDupesFound fs out) := by
  unfold readableDupesFound
  infer_instance

end ClaimFixtures

section Claims

/-- C1, counterexample: the claim that groups are ordered descending by
reclaimable size Size * (len(Names) - 1) fails on this run: the pair of
10-byte duplicates (reclaimable 10) precedes the triple of 6-byte duplicates
(reclaimable 12), because bySize.Less orders by Size * len(Names)
(20 before 18). -/
theorem claim_C1_counterexample :
    dupesOn cexC1 = [⟨10, ["a", "b"]⟩, ⟨6, ["c", "d", "e"]⟩] ∧
      ¬ reclaimSorted (dupesOn cexC1) := by
  constructor
  · decide
  · decide

/-- C1, amended: for every result Dupes returns, the groups are ordered
descending by total size Size * len(Names), the key actually compared by
bySize.Less; not by reclaimable size Size * (len(Names) - 1). -/
theorem claim_C1_amended (roots : List String) (fss : List (String × Node))
    (out : List Info) (h : DupesFS roots fss = .ok out) :
    out.Pairwise (fun g1 g2 =>
      g2.Size * (g2.Names.length : Int) ≤ g1.Size * (g1.Names.length : Int)) := by
  rcases hw : walkAll fss roots [] with e | pend
  · simp only [DupesFS, hw] at h
    exact Except.noConfusion h
  · simp only [DupesFS, hw] at h
    obtain rfl : dupesOn pend = out := Except.ok.inj h
    exact List.sorted_insertionSort infoGe (collectDupes (runCore pend).files)

/-- Witness for C1 amended at a concrete two-file tree. -/
theorem claim_C1_amended_witness :
    ([(⟨2, ["r/b", "r/c"]⟩ : Info)]).Pairwise (fun g1 g2 =>
      g2.Size * (g2.Names.length : Int) ≤ g1.Size * (g1.Names.length : Int)) :=
  claim_C1_amended ["r"] wTree [⟨2, ["r/b", "r/c"]⟩] (by decide)

/-- C2: on a root that does not exist, lstat fails and filepath.Walk hands
the callback a nil FileInfo; the callback calls info.IsDir() and the run dies
in a nil-pointer panic. Dupes has no code path returning a non-nil error
value, so the claimed fatal error value is never produced; the panic is what
aborts the run. -/
theorem claim_C2_missingRoot_panics (root : String) (rs : List String)
    (fss : List (String × Node)) (h : alistFind? fss root = none) :
    DupesFS (root :: rs) fss = Except.error () := by
  simp only [DupesFS, walkAll, walkRoot, h]

/-- Witness for C2 at a concrete missing root. -/
theorem claim_C2_witness :
    alistFind? wTree "nope" = none ∧ DupesFS ["nope"] wTree = Except.error () :=
  ⟨by rfl, claim_C2_missingRoot_panics "nope" [] wTree (by rfl)⟩

/-- C3, counterexample: hashing a readable one-byte file with limit 2 does
not return the digest of the whole shorter file; io.CopyN reports io.EOF and
hash returns an error. -/
theorem claim_C3_counterexample :
    readableAt cexC3 "a" = true ∧ contentAt cexC3 "a" = some [7] ∧
      goHash cexC3 "a" 2 = none ∧ goHash cexC3 "a" 2 ≠ some [7] := by
  refine ⟨by decide, by decide, by decide, by decide⟩

/-- C3, amended: on a readable on-disk file, hash(path, limit) returns the
digest of exactly the first limit bytes when 0 < limit and the file is at
least limit bytes long, an error (io.EOF from io.CopyN) when the file is
shorter than the positive limit, and the digest of the entire content when
the limit is zero or negative. -/
theorem claim_C3_amended (fs : List FileEntry) (p : String) (c : List Nat) (bs : Int)
    (hc : contentAt fs p = some c) (hrd : readableAt fs p = true) :
    goHash fs p bs =
      if 0 < bs then
        (if bs ≤ (c.length : Int) then some (c.take bs.toNat) else none)
      else some c := by
  unfold contentAt at hc
  unfold readableAt at hrd
  rcases hf : fs.find? (fun e => e.path == p) with _ | e
  · rw [hf] at hc
    exact Option.noConfusion hc
  · rw [hf] at hc hrd
    simp only [Option.map_some'] at hc
    obtain rfl : e.content = c := Option.some.inj hc
    simp only [goHash, hf, if_pos hrd]

/-- Witness for C3 amended: the three limit regimes at a concrete file. -/
theorem claim_C3_amended_witness :
    goHash cexC3 "a" 1 = some [7] ∧ goHash cexC3 "a" 2 = none ∧
      goHash cexC3 "a" (-1) = some [7] := by
  refine ⟨?_, ?_, ?_⟩
  · rw [claim_C3_amended cexC3 "a" [7] 1 (by decide) (by decide)]
    decide
  · rw [claim_C3_amended cexC3 "a" [7] 2 (by decide) (by decide)]
    decide
  · rw [claim_C3_amended cexC3 "a" [7] (-1) (by decide) (by decide)]
    decide

/-- C4, counterexample: with an unreadable file processed first and two
readable duplicates of the same size after it, the run completes but reports
no groups at all, so it does not return the duplicates found among the
readable subset: the unreadable file stays parked as the bucket's unhashed
member and every later same-size file was skipped by the continue. -/
theorem claim_C4_counterexample :
    dupesOn cexC4 = [] ∧ ¬ readableDupesFound cexC4 (dupesOn cexC4) := by
  constructor
  · decide
  · decide

/-- C4, amended: a file whose hash cannot be computed never appears in any
returned DuplicateGroup - every path listed in any group is a readable
on-disk file - and the scan always completes with a result; but duplicates
among the remaining readable files may be missed (see the counterexample),
so the output is not the full duplicate set of the readable subset. -/
theorem claim_C4_amended (fs : List FileEntry)
    (hnd : (fs.map FileEntry.path).Nodup) :
    ∀ g ∈ dupesOn fs, ∀ p ∈ g.Names, readableAt fs p = true := by
  intro g hg p hp
  obtain ⟨_, _, d, _, hmem⟩ := dupesOn_group_facts hnd hg
  obtain ⟨e, he, hpe, hrd, _⟩ := hmem p hp
  unfold readableAt
  rw [← hpe, find?_path_self hnd he]
  exact hrd

/-- Witness for C4 amended: an output path of a scan that also saw an
unreadable file is readable. -/
theorem claim_C4_amended_witness :
    (wfs4.map FileEntry.path).Nodup ∧ readableAt wfs4 "p" = true :=
  ⟨by decide, claim_C4_amended wfs4 (by decide) ⟨1, ["p", "q"]⟩ (by decide) "p" (by decide)⟩

/-- C5: with every input file readable and paths distinct and nonempty,
every file whose full content equals another file's content appears in
exactly one returned DuplicateGroup. -/
theorem claim_C5_completeness (fs : List FileEntry) (e f : FileEntry)
    (hnd : (fs.map FileEntry.path).Nodup)
    (hne : ∀ x ∈ fs, ¬ FileEntry.path x = "")
    (hrd : ∀ x ∈ fs, FileEntry.readable x = true)
    (he : e ∈ fs) (hf : f ∈ fs) (hef : e ≠ f)
    (hcc : e.content = f.content) :
    ((dupesOn fs).filter (fun g => decide (e.path ∈ g.Names))).length = 1 :=
  dupes_complete_core hnd hne hrd he hf hef hcc

/-- Witness for C5 at two concrete identical files. -/
theorem claim_C5_witness :
    ((dupesOn wfs5).filter (fun g => decide (("x" : String) ∈ g.Names))).length = 1 :=
  claim_C5_completeness wfs5 ⟨"x", [9], true⟩ ⟨"y", [9], true⟩ (by decide) (by decide)
    (by decide) (by decide) (by decide) (by decide) (by decide)

/-- C6: every returned DuplicateGroup has at least two pairwise-distinct
paths, every listed file's on-disk byte length equals the group's Size, and
all members share one full-content digest (equal on-disk content under the
ideal-hash model). -/
theorem claim_C6_group_invariants (fs : List FileEntry)
    (hnd : (fs.map FileEntry.path).Nodup) (g : Info) (hg : g ∈ dupesOn fs) :
    2 ≤ g.Names.length ∧ g.Names.Nodup ∧
      (∀ p ∈ g.Names, sizeAt fs p = some g.Size) ∧
      (∀ p ∈ g.Names, ∀ q ∈ g.Names, contentAt fs p = contentAt fs q) := by
  obtain ⟨hlen, hndl, d, hd, hmem⟩ := dupesOn_group_facts hnd hg
  refine ⟨hlen, hndl, ?_, ?_⟩
  · intro p hp
    obtain ⟨e, he, hpe, _, hcd⟩ := hmem p hp
    unfold sizeAt
    rw [← hpe, find?_path_self hnd he]
    simp only [Option.map_some']
    rw [hd]
    unfold intSize
    rw [hcd]
  · intro p hp q hq
    obtain ⟨e, he, hpe, _, hcd⟩ := hmem p hp
    obtain ⟨e1, he1, hpe1, _, hcd1⟩ := hmem q hq
    unfold contentAt
    rw [← hpe, ← hpe1, find?_path_self hnd he, find?_path_self hnd he1]
    simp only [Option.map_some']
    rw [hcd, hcd1]

/-- Witness for C6 at a concrete duplicate pair. -/
theorem claim_C6_witness :
    2 ≤ (["x", "y"] : List String).length ∧ sizeAt wfs5 "x" = some 1 ∧
      contentAt wfs5 "x" = contentAt wfs5 "y" := by
  have h := claim_C6_group_invariants wfs5 (by decide) ⟨1, ["x", "y"]⟩ (by decide)
  exact ⟨h.1, h.2.2.1 "x" (by decide), h.2.2.2 "x" (by decide) "y" (by decide)⟩

/-- C7, counterexample: an lstat failure on a single directory entry during
the walk - the very example the claim gives - reaches the callback with a nil
FileInfo, and the run dies in the nil-pointer panic instead of continuing
with the sibling entries. -/
theorem claim_C7_counterexample : DupesFS ["r"] cexC7 = Except.error () := by
  decide

/-- C7, amended: when enumeration encounters a read error on a subtree (an
unreadable directory), the walk skips that directory and continues
enumerating sibling entries exactly as if the directory were absent, and the
run completes; but an lstat failure on an individual entry panics (see the
counterexample). -/
theorem claim_C7_amended (dp nm : String) (bs es1 es2 : Entries)
    (pend : List FileEntry) :
    walkEntries dp (eappend es1 (Entries.cons nm (Node.dir false bs) es2)) pend =
      walkEntries dp (eappend es1 es2) pend := by
  rw [walkEntries_eappend, walkEntries_eappend]
  rcases hw : walkEntries dp es1 pend with e | pend1
  · rfl
  · simp [walkEntries, walkNode]

/-- C8: a file whose byte size no other enumerated file shares is never
hashed - its path never appears in the log of hash invocations, with either
a prefix blocksize or the full-content blocksize. -/
theorem claim_C8_unique_size_never_hashed (fs : List FileEntry) (e : FileEntry)
    (hnd : (fs.map FileEntry.path).Nodup) (he : e ∈ fs)
    (huniq : ∀ f ∈ fs, f.path ≠ e.path → intSize f ≠ intSize e) :
    e.path ∉ (runCore fs).hashLog.map Prod.fst :=
  unique_size_unhashed hnd he huniq

/-- Witness for C8 at a concrete unique-size file. -/
theorem claim_C8_witness : ("u" : String) ∉ (runCore wfs8).hashLog.map Prod.fst :=
  claim_C8_unique_size_never_hashed wfs8 ⟨"u", [1], true⟩ (by decide) (by decide) (by decide)

/-- C9: on exactly two readable files of equal size whose contents differ
within the first 4096 bytes, the run returns zero groups, and the hash log
holds exactly the two first-pass invocations with a positive blocksize - the
full-content hash (blocksize -1, or any nonpositive blocksize) is never
computed for either file. -/
theorem claim_C9_prefix_reject (e1 e2 : FileEntry)
    (hp1 : ¬ e1.path = "") (hpne : ¬ e2.path = e1.path)
    (hr1 : e1.readable = true) (hr2 : e2.readable = true)
    (hsz : e1.content.length = e2.content.length)
    (hpd : e1.content.take 4096 ≠ e2.content.take 4096) :
    dupesOn [e1, e2] = [] ∧
      (runCore [e1, e2]).hashLog =
        [(e1.path, min 4096 (intSize e1)), (e2.path, min 4096 (intSize e1))] ∧
      0 < min 4096 (intSize e1) := by
  have hszi : intSize e2 = intSize e1 := by
    unfold intSize
    rw [hsz]
  have hpos : 0 < min 4096 (intSize e1) := by
    rcases Nat.eq_zero_or_pos e1.content.length with h0 | h0
    · exfalso
      have h02 : e2.content.length = 0 := by omega
      rw [List.eq_nil_of_length_eq_zero h0, List.eq_nil_of_length_eq_zero h02] at hpd
      exact hpd rfl
    · refine lt_min (by norm_num) ?_
      unfold intSize
      exact_mod_cast h0
  have hfind1 : ([e1, e2].find? (fun f => f.path == e1.path)) = some e1 := by
    rw [List.find?_cons]
    simp
  have hfind2 : ([e1, e2].find? (fun f => f.path == e2.path)) = some e2 := by
    rw [List.find?_cons]
    have hb : (e1.path == e2.path) = false :=
      beq_eq_false_iff_ne.mpr (fun h => hpne h.symm)
    rw [hb]
    rw [List.find?_cons]
    simp
  have hg1 : goHash [e1, e2] e1.path (min 4096 (intSize e2)) = some (pdig e1) := by
    rw [hszi, goHash_pref hfind1, if_pos hr1]
  have hg2 : goHash [e1, e2] e2.path (min 4096 (intSize e2)) = some (pdig e2) := by
    rw [hszi]
    have h1 := goHash_pref hfind2
    rw [hszi] at h1
    rw [h1, if_pos hr2]
  have hstep1 : step [e1, e2] ⟨[], []⟩ e1 = ⟨[(intSize e1, ⟨e1.path, [], []⟩)], []⟩ := rfl
  have hfindb : alistFind? [(intSize e1, (⟨e1.path, [], []⟩ : Bucket))] (intSize e2) =
      some ⟨e1.path, [], []⟩ := by
    rw [hszi]
    simp [alistFind?]
  have hfp : alistFind? (updateA ([] : List (List Nat × String)) (pdig e1) e1.path)
      (pdig e2) = none := by
    have hpd2 : ¬ pdig e1 = pdig e2 := hpd
    simp only [updateA, alistFind?]
    rw [if_neg hpd2]
  have hrun : runCore [e1, e2] =
      putB ⟨[(intSize e1, ⟨e1.path, [], []⟩)], []⟩ (intSize e2)
        ⟨"", updateA (updateA [] (pdig e1) e1.path) (pdig e2) e2.path, []⟩
        ([(e1.path, min 4096 (intSize e2))] ++ [(e2.path, min 4096 (intSize e2))]) := by
    show List.foldl (step [e1, e2]) ⟨[], []⟩ [e1, e2] = _
    rw [List.foldl_cons, List.foldl_cons, List.foldl_nil, hstep1,
      step_eq_pend_ok hfindb hp1 hg1, stepB_eq_fresh hg2 hfp]
  have hfiles : (runCore [e1, e2]).files =
      [(intSize e1, ⟨"", updateA (updateA [] (pdig e1) e1.path) (pdig e2) e2.path, []⟩)] := by
    rw [hrun, hszi]
    simp [putB, updateA]
  refine ⟨?_, ?_, hpos⟩
  · unfold dupesOn
    rw [hfiles]
    rfl
  · rw [hrun]
    show [(e1.path, min 4096 (intSize e2)), (e2.path, min 4096 (intSize e2))] = _
    rw [hszi]

/-- Witness for C9 at two concrete same-size files differing in byte 2. -/
theorem claim_C9_witness :
    dupesOn [(⟨"x", [1, 2], true⟩ : FileEntry), ⟨"y", [1, 3], true⟩] = [] ∧
      (runCore [(⟨"x", [1, 2], true⟩ : FileEntry), ⟨"y", [1, 3], true⟩]).hashLog =
        [("x", min 4096 (intSize ⟨"x", [1, 2], true⟩)),
         ("y", min 4096 (intSize ⟨"x", [1, 2], true⟩))] ∧
      0 < min 4096 (intSize (⟨"x", [1, 2], true⟩ : FileEntry)) :=
  claim_C9_prefix_reject ⟨"x", [1, 2], true⟩ ⟨"y", [1, 3], true⟩ (by decide) (by decide)
    (by decide) (by decide) (by decide) (by decide)

/-- C10: with nonempty root strings, even overlapping or repeated roots
contribute one pending record per distinct path - pending is keyed by path -
so no returned DuplicateGroup lists the same path twice and a file is never
reported as a duplicate of itself. -/
theorem claim_C10_no_duplicate_paths (roots : List String) (fss : List (String × Node))
    (out : List Info) (hroots : ∀ r ∈ roots, ¬ r = "")
    (h : DupesFS roots fss = .ok out) :
    ∀ g ∈ out, g.Names.Nodup := by
  rcases hw : walkAll fss roots [] with e | pend
  · simp only [DupesFS, hw] at h
    exact Except.noConfusion h
  · simp only [DupesFS, hw] at h
    obtain rfl : dupesOn pend = out := Except.ok.inj h
    have hok := walkAll_pendOK roots [] pend hroots ⟨by simp, by simp⟩ hw
    intro g hg
    exact (dupesOn_group_facts hok.1 hg).2.1

/-- Witness for C10 with the same root walked twice. -/
theorem claim_C10_witness : (["r/b", "r/c"] : List String).Nodup :=
  claim_C10_no_duplicate_paths ["r", "r"] wTree [⟨2, ["r/b", "r/c"]⟩] (by decide)
    (by decide) ⟨2, ["r/b", "r/c"]⟩ (by decide)

end Claims

end Undupes
